import Mathlib

/-! BigInt (src/bigint.hpp): a shallow embedding and its verification

The C++ class `BigInt` stores a sign flag and a `vector<uint8_t>` of decimal
digits, least-significant digit first.  Member functions mutate the receiver
in place; here each of them is a function from the receiver (and its
arguments) to the new receiver.

Conventions of the embedding

* a `vector<uint8_t>` is a `List Nat`; every value written into it is reduced
  `% 256`, the way a conversion to `uint8_t` does;
* `v[i]` (unchecked `operator[]`) is `idx v i`, which fails with
  `Fault.undefinedBehaviour` outside the vector;
* `v.at(i)` is `atIdx v i`, which fails with `Fault.outOfRange`;
* `throw invalid_argument(msg)` is `Fault.invalidArgument msg`;
* a loop whose exit depends on the data it computes is a recursion on a
  budget of iterations; an exhausted budget is `Fault.outOfFuel`, so a result
  `.ok r` always means that the loop left through its own condition;
* `size_t` and `uint64_t` counters are natural numbers: they only ever hold
  sizes and indices of vectors;
* the right operand of a binary operation is a value distinct from the
  receiver (as it is in `operator+`, `operator-`, `operator*`, whose left
  operand is a copy).
-/

namespace BigIntModel

/-- The ways an operation can end without a value. -/
inductive Fault where
  | invalidArgument (msg : String)
  | outOfRange
  | undefinedBehaviour
  | outOfFuel
  deriving DecidableEq, Repr

/-- The class `BigInt`: `isNegative` and `numbers` (digits in reverse order). -/
structure BigInt where
  isNegative : Bool
  numbers : List Nat
  deriving DecidableEq, Repr

/-- Conversion of an `int` result to `uint8_t`. -/
def u8 (n : Int) : Nat := (n % 256).toNat

/-- Unchecked element access `v[i]`. -/
def idx (v : List Nat) (i : Nat) : Except Fault Nat :=
  match v[i]? with
  | some x => .ok x
  | none => .error .undefinedBehaviour

/-- Checked element access `v.at(i)`. -/
def atIdx (v : List Nat) (i : Nat) : Except Fault Nat :=
  match v[i]? with
  | some x => .ok x
  | none => .error .outOfRange

/-- The loop `while (v.size() > 1 && v.back() == 0) v.pop_back();`. -/
def trimLoop : Nat → List Nat → Except Fault (List Nat)
  | 0, _ => .error .outOfFuel
  | fuel + 1, v =>
    if v.length > 1 ∧ v.getLast? = some 0 then trimLoop fuel v.dropLast
    else .ok v

namespace BigInt

/-- `BigInt::BigInt()`. -/
def default : BigInt := ⟨false, [0]⟩

/-- `BigInt::BigInt(const BigInt &)`. -/
def copy (other : BigInt) : BigInt := ⟨other.isNegative, other.numbers⟩

/-- `BigInt::getSign`. -/
def getSign (self : BigInt) : Bool := self.isNegative

/-- `BigInt::getSize`. -/
def getSize (self : BigInt) : Nat := self.numbers.length

/-- `BigInt::getNum`. -/
def getNum (self : BigInt) (i : Nat) : Except Fault Nat := atIdx self.numbers i

/-- The test `(c - '0') <= 9 && (c - '0') >= 0` of the two string parsers, in
`int` arithmetic.  A `char` outside ASCII fails it whether `char` is signed
(the difference is negative) or unsigned (it exceeds 9); here the character
code is taken unsigned. -/
def isDigitChar (c : Char) : Bool :=
  decide ((c.toNat : Int) - 48 ≤ 9 ∧ (c.toNat : Int) - 48 ≥ 0)

/-- The digit loop of `BigInt::BigInt(const string &)`, over the characters
from the first digit position on. -/
def ctorDigits : List Char → List Nat → Except Fault (List Nat)
  | [], numbers => .ok numbers
  | c :: cs, numbers =>
    if !isDigitChar c then
      .error (.invalidArgument "Invalid input: contains non-digit character")
    else ctorDigits cs (numbers ++ [u8 ((c.toNat : Int) - 48)])

/-- `BigInt::BigInt(const string &)`.  `_numbers[0]` of an empty `std::string`
is the terminating `'\0'`. -/
def ofString (s : List Char) : Except Fault BigInt :=
  let c0 := s.getD 0 (Char.ofNat 0)
  let isNegative := if c0 = '-' then true else false
  let temp := if c0 = '-' then 1 else if c0 = '+' then 1 else 0
  if s.length = 1 ∧ (c0 = '-' ∨ c0 = '+') then
    .error (.invalidArgument "Invalid input: only contains sign character")
  else do
    let numbers ← ctorDigits (s.drop temp) []
    pure ⟨isNegative, numbers.reverse⟩

/-- The digit loop of `BigInt::operator=(const string &)`: the vector reached,
and the exception if one was thrown. -/
def assignDigits : List Char → List Nat → List Nat × Option Fault
  | [], numbers => (numbers, none)
  | c :: cs, numbers =>
    if !isDigitChar c then
      (numbers, some (.invalidArgument "Invalid assignment: contains non-digit character"))
    else assignDigits cs (numbers ++ [u8 ((c.toNat : Int) - 48)])

/-- `BigInt::operator=(const string &)`: the receiver after the call, and the
exception if one was thrown. -/
def operatorAssignString (self : BigInt) (s : List Char) : BigInt × Option Fault :=
  let c0 := s.getD 0 (Char.ofNat 0)
  let isNegative := if c0 = '-' then true else if c0 = '+' then false else self.isNegative
  let temp := if c0 = '-' then 1 else if c0 = '+' then 1 else 0
  if s.length = 1 ∧ (c0 = '-' ∨ c0 = '+') then
    (⟨isNegative, self.numbers⟩,
      some (.invalidArgument "Invalid assignment: only contains sign character"))
  else
    match assignDigits (s.drop temp) [] with
    | (numbers, some e) => (⟨isNegative, numbers⟩, some e)
    | (numbers, none) => (⟨isNegative, numbers.reverse⟩, none)

/-- The loop `for (size_t i = numbers.size() - 1; i >= 1; i--)` of
`isAbsGreaterOrEqual` from index `i` down, followed by the final
`return numbers[0] >= rhs.numbers[0]`. -/
def isAbsGreaterOrEqualLoop (numbers rhs : List Nat) : Nat → Except Fault Bool
  | 0 => do
    let x ← idx numbers 0
    let y ← idx rhs 0
    pure (decide (x ≥ y))
  | i + 1 => do
    let x ← idx numbers (i + 1)
    let y ← idx rhs (i + 1)
    if x ≠ y then pure (decide (x > y))
    else isAbsGreaterOrEqualLoop numbers rhs i

/-- `BigInt::isAbsGreaterOrEqual`.  On an empty vector `numbers.size() - 1`
wraps to the largest `size_t`, and the first `numbers[i]` is outside the
vector. -/
def isAbsGreaterOrEqual (self rhs : BigInt) : Except Fault Bool :=
  if self.numbers.length ≠ rhs.numbers.length then
    pure (decide (self.numbers.length > rhs.numbers.length))
  else
    match self.numbers.length with
    | 0 => .error .undefinedBehaviour
    | n + 1 => isAbsGreaterOrEqualLoop self.numbers rhs.numbers n

/-- The loop of `additionAbs`: `for (i = 0; i < length || carry != 0; i++)`. -/
def additionAbsLoop (rhs : List Nat) (length : Nat) :
    Nat → Nat → List Nat → Nat → Except Fault (List Nat)
  | 0, _, _, _ => .error .outOfFuel
  | fuel + 1, i, numbers, carry =>
    if i < length ∨ carry ≠ 0 then do
      let numbers := if i = numbers.length then numbers ++ [0] else numbers
      let x ← idx numbers i
      let sum ←
        if i < rhs.length then do
          let y ← idx rhs i
          pure ((x + y + carry) % 256)
        else pure ((x + carry) % 256)
      additionAbsLoop rhs length fuel (i + 1) (numbers.set i (sum % 10 % 256)) (sum / 10 % 256)
    else pure numbers

/-- `BigInt::additionAbs`.  Past `length` every iteration appends a zero and
divides the carry by ten, so `length + 3` iterations are a budget the loop
cannot use up on vectors of `uint8_t`. -/
def additionAbs (self rhs : BigInt) : Except Fault BigInt := do
  let length := max self.numbers.length rhs.numbers.length
  let numbers ← additionAbsLoop rhs.numbers length (length + 3) 0 self.numbers 0
  pure ⟨self.isNegative, numbers⟩

/-- The loop of `subtractionAbs`: `for (i = 0; i < numbers.size(); i++)`. -/
def subtractionAbsLoop (rhs : List Nat) :
    Nat → Nat → List Nat → Nat → Except Fault (List Nat)
  | 0, _, _, _ => .error .outOfFuel
  | fuel + 1, i, numbers, borrow =>
    if i < numbers.length then do
      let x ← idx numbers i
      let sub ←
        if i < rhs.length then do
          let y ← idx rhs i
          pure (u8 ((x : Int) - (y : Int) - (borrow : Int)))
        else pure (u8 ((x : Int) - (borrow : Int)))
      if sub > x then
        subtractionAbsLoop rhs fuel (i + 1) (numbers.set i (u8 ((sub : Int) + 10))) 1
      else
        subtractionAbsLoop rhs fuel (i + 1) (numbers.set i sub) 0
    else pure numbers

/-- `BigInt::subtractionAbs`. -/
def subtractionAbs (self rhs : BigInt) : Except Fault BigInt := do
  let numbers ← subtractionAbsLoop rhs.numbers (self.numbers.length + 1) 0 self.numbers 0
  let numbers ← trimLoop (numbers.length + 1) numbers
  pure ⟨self.isNegative, numbers⟩

/-- The inner loop of `multiplicationAbs`:
`for (j = 0; j < rhs.numbers.size() || carry != 0; j++)`.  The sum `result`
is at most `255 + 255 * 255 + 255`, so neither the `int` arithmetic nor the
conversion to `uint64_t` changes it. -/
def multiplicationAbsInner (numbers rhs : List Nat) (i : Nat) :
    Nat → Nat → List Nat → Nat → Except Fault (List Nat)
  | 0, _, _, _ => .error .outOfFuel
  | fuel + 1, j, temp, carry =>
    if j < rhs.length ∨ carry ≠ 0 then do
      let t ← idx temp (i + j)
      let result ←
        if j < rhs.length then do
          let r ← idx rhs j
          let n ← idx numbers i
          pure (t + r * n + carry)
        else pure (t + carry)
      multiplicationAbsInner numbers rhs i fuel (j + 1)
        (temp.set (i + j) (result % 10 % 256)) (result / 10 % 256)
    else pure temp

/-- The outer loop of `multiplicationAbs`: `for (i = 0; i < numbers.size(); i++)`.
Each inner iteration touches `temp[i + j]`, so the inner loop has left or
failed before `temp.size() + 1` iterations. -/
def multiplicationAbsOuter (numbers rhs : List Nat) :
    Nat → Nat → List Nat → Except Fault (List Nat)
  | 0, _, _ => .error .outOfFuel
  | fuel + 1, i, temp =>
    if i < numbers.length then do
      let temp ← multiplicationAbsInner numbers rhs i (temp.length + 1) 0 temp 0
      multiplicationAbsOuter numbers rhs fuel (i + 1) temp
    else pure temp

/-- `BigInt::multiplicationAbs`. -/
def multiplicationAbs (self rhs : BigInt) : Except Fault BigInt := do
  let temp := List.replicate (self.numbers.length + rhs.numbers.length) 0
  let temp ← multiplicationAbsOuter self.numbers rhs.numbers (self.numbers.length + 1) 0 temp
  let temp ← trimLoop (temp.length + 1) temp
  pure ⟨self.isNegative, temp⟩

/-- `BigInt::operator=(const BigInt &)`. -/
def operatorAssign (_self rhs : BigInt) : BigInt := ⟨rhs.isNegative, rhs.numbers⟩

/-- `BigInt::operator+=`.  `*this = move(temp)` is the copy assignment: the
class declares no move assignment. -/
def operatorPlusEq (self rhs : BigInt) : Except Fault BigInt :=
  if self.isNegative = rhs.isNegative then self.additionAbs rhs
  else do
    if (← self.isAbsGreaterOrEqual rhs) then self.subtractionAbs rhs
    else
      let self : BigInt := ⟨rhs.isNegative, self.numbers⟩
      let temp := copy rhs
      let temp ← temp.subtractionAbs self
      pure (self.operatorAssign temp)

/-- `BigInt::operator-=`.  `*this = move(temp)` is the copy assignment. -/
def operatorMinusEq (self rhs : BigInt) : Except Fault BigInt :=
  if self.isNegative ≠ rhs.isNegative then self.additionAbs rhs
  else do
    if (← self.isAbsGreaterOrEqual rhs) then self.subtractionAbs rhs
    else
      let self : BigInt := ⟨!self.isNegative, self.numbers⟩
      let temp := copy rhs
      let temp ← temp.subtractionAbs self
      pure (self.operatorAssign temp)

/-- `BigInt::operator*=`. -/
def operatorTimesEq (self rhs : BigInt) : Except Fault BigInt :=
  let self : BigInt :=
    if self.isNegative ≠ rhs.isNegative then ⟨true, self.numbers⟩
    else if self.isNegative = true then ⟨false, self.numbers⟩
    else self
  self.multiplicationAbs rhs

/-- `BigInt::operator-()`. -/
def operatorNeg (self : BigInt) : Except Fault BigInt := do
  if self.numbers.length = 1 then
    let x ← idx self.numbers 0
    if x = 0 then pure self else pure ⟨!self.isNegative, self.numbers⟩
  else pure ⟨!self.isNegative, self.numbers⟩

end BigInt

open BigInt

/-- `operator+(BigInt, const BigInt &)`. -/
def operatorPlus (lhs rhs : BigInt) : Except Fault BigInt := (copy lhs).operatorPlusEq rhs

/-- `operator-(BigInt, const BigInt &)`. -/
def operatorMinus (lhs rhs : BigInt) : Except Fault BigInt := (copy lhs).operatorMinusEq rhs

/-- `operator*(BigInt, const BigInt &)`. -/
def operatorTimes (lhs rhs : BigInt) : Except Fault BigInt := (copy lhs).operatorTimesEq rhs

/-- `operator==`. -/
def operatorEq (lhs rhs : BigInt) : Except Fault Bool :=
  if lhs.getSign ≠ rhs.getSign then pure false
  else do
    if (← lhs.isAbsGreaterOrEqual rhs) then rhs.isAbsGreaterOrEqual lhs
    else pure false

/-- `operator!=`. -/
def operatorNe (lhs rhs : BigInt) : Except Fault Bool := do
  pure (!(← operatorEq lhs rhs))

/-- `operator<=`. -/
def operatorLe (lhs rhs : BigInt) : Except Fault Bool :=
  if lhs.getSign = false ∧ rhs.getSign = true then pure false
  else if lhs.getSign = true ∧ rhs.getSign = false then pure true
  else rhs.isAbsGreaterOrEqual lhs

/-- `operator>`. -/
def operatorGt (lhs rhs : BigInt) : Except Fault Bool := do
  pure (!(← operatorLe lhs rhs))

/-- `operator>=`. -/
def operatorGe (lhs rhs : BigInt) : Except Fault Bool :=
  if lhs.getSign = true ∧ rhs.getSign = false then pure false
  else if lhs.getSign = false ∧ rhs.getSign = true then pure true
  else lhs.isAbsGreaterOrEqual rhs

/-- `operator<`. -/
def operatorLt (lhs rhs : BigInt) : Except Fault Bool := do
  pure (!(← operatorGe lhs rhs))

/-- The loop `for (size_t i = getSize() - 1; i >= 1; i--) out << getNum(i)` of
`operator<<` from index `i` down, followed by `out << getNum(0)`.  A digit is
written as the decimal text of its `int` value. -/
def outLoop (bigint : BigInt) (out : String) : Nat → Except Fault String
  | 0 => do
    let d ← bigint.getNum 0
    pure (out ++ toString d)
  | i + 1 => do
    let d ← bigint.getNum (i + 1)
    outLoop bigint (out ++ toString d) i

/-- `operator<<` on an output stream whose text so far is `out`.  On an empty
vector `getSize() - 1` wraps to the largest `size_t` and `getNum` throws. -/
def operatorOut (out : String) (bigint : BigInt) : Except Fault String := do
  let out ←
    if bigint.getSign then do
      if bigint.getSize = 1 then
        let d ← bigint.getNum 0
        if d = 0 then pure out else pure (out ++ "-")
      else pure (out ++ "-")
    else pure out
  match bigint.getSize with
  | 0 => .error .outOfRange
  | n + 1 => outLoop bigint out n

/-- Reduction of an integer to the range of `int64_t`, in two's complement. -/
def wrap64 (n : Int) : Int := (n + 2 ^ 63) % 2 ^ 64 - 2 ^ 63

/-- `abs` on an `int64_t`, the negation taken in 64-bit two's complement: the
most negative value is its own negation. -/
def abs64 (n : Int) : Int := if n < 0 then wrap64 (-n) else n

/-- The loop `for (; _num != 0; _num /= 10) numbers.push_back(
static_cast<uint8_t>(_num % 10));` of the two integer conversions.  `/` and
`%` on `int64_t` truncate toward zero. -/
def pushDigitsLoop : Nat → Int → List Nat → Except Fault (List Nat)
  | 0, _, _ => .error .outOfFuel
  | fuel + 1, num, numbers =>
    if num ≠ 0 then
      pushDigitsLoop fuel (Int.tdiv num 10) (numbers ++ [u8 (Int.tmod num 10)])
    else .ok numbers

/-- `BigInt::BigInt(int64_t)`, for `_num` in the range of `int64_t`.  A 64-bit
value has at most 19 decimal digits, so 20 iterations are a budget the loop
cannot use up. -/
def BigInt.ofInt64 (num : Int) : Except Fault BigInt := do
  let isNegative := decide (num < 0)
  let num := abs64 num
  let numbers : List Nat := if num = 0 then [0] else []
  let numbers ← pushDigitsLoop 20 num numbers
  pure ⟨isNegative, numbers⟩

/-- `BigInt::operator=(int64_t)`, for `_num` in the range of `int64_t`. -/
def BigInt.operatorAssignInt (_self : BigInt) (num : Int) : Except Fault BigInt := do
  let isNegative := decide (num < 0)
  let num := abs64 num
  let numbers : List Nat := []
  let numbers : List Nat := if num = 0 then numbers ++ [0] else numbers
  let numbers ← pushDigitsLoop 20 num numbers
  pure ⟨isNegative, numbers⟩

/-- The inner loop of `multiplicationAbs` once more, with a record of what
each iteration does: the index `i + j` at which it reads and writes `temp`,
and the sum `result` it forms there. -/
def BigInt.multiplicationAbsInnerLog (numbers rhs : List Nat) (i : Nat) :
    Nat → Nat → List Nat → Nat → List (Nat × Nat) →
      Except Fault (List Nat × List (Nat × Nat))
  | 0, _, _, _, _ => .error .outOfFuel
  | fuel + 1, j, temp, carry, log =>
    if j < rhs.length ∨ carry ≠ 0 then do
      let t ← idx temp (i + j)
      let result ←
        if j < rhs.length then do
          let r ← idx rhs j
          let n ← idx numbers i
          pure (t + r * n + carry)
        else pure (t + carry)
      multiplicationAbsInnerLog numbers rhs i fuel (j + 1)
        (temp.set (i + j) (result % 10 % 256)) (result / 10 % 256)
        (log ++ [(i + j, result)])
    else pure (temp, log)

/-- The outer loop of `multiplicationAbs` once more, with the record of the
inner iterations. -/
def BigInt.multiplicationAbsOuterLog (numbers rhs : List Nat) :
    Nat → Nat → List Nat → List (Nat × Nat) → Except Fault (List Nat × List (Nat × Nat))
  | 0, _, _, _ => .error .outOfFuel
  | fuel + 1, i, temp, log =>
    if i < numbers.length then do
      let (temp, log) ←
        multiplicationAbsInnerLog numbers rhs i (temp.length + 1) 0 temp 0 log
      multiplicationAbsOuterLog numbers rhs fuel (i + 1) temp log
    else pure (temp, log)

/-- `BigInt::multiplicationAbs` once more, with the record of all the inner
iterations, in the order in which they run. -/
def BigInt.multiplicationAbsLog (self rhs : BigInt) :
    Except Fault (BigInt × List (Nat × Nat)) := do
  let temp := List.replicate (self.numbers.length + rhs.numbers.length) 0
  let (temp, log) ←
    multiplicationAbsOuterLog self.numbers rhs.numbers (self.numbers.length + 1) 0 temp []
  let temp ← trimLoop (temp.length + 1) temp
  pure (⟨self.isNegative, temp⟩, log)

/-- The natural number a digit vector denotes: the sum of `digits[i] * 10^i`. -/
def digitsValue : List Nat → Nat
  | [] => 0
  | d :: ds => d + 10 * digitsValue ds

/-- The integer a `BigInt` denotes. -/
def BigInt.value (a : BigInt) : Int :=
  if a.isNegative then -(digitsValue a.numbers : Int) else (digitsValue a.numbers : Int)

/-- A canonical digit vector: non-empty, decimal digits only, and no
most-significant zero unless it is exactly `[0]`. -/
def CanonicalDigits (v : List Nat) : Prop :=
  v ≠ [] ∧ (∀ d ∈ v, d ≤ 9) ∧ (v.getLast? = some 0 → v = [0])

instance (v : List Nat) : Decidable (CanonicalDigits v) := by
  unfold CanonicalDigits; infer_instance

/-- Canonical form of a value: canonical digits, and no negative zero. -/
def BigInt.Canonical (a : BigInt) : Prop :=
  CanonicalDigits a.numbers ∧ (a.numbers = [0] → a.isNegative = false)

instance (a : BigInt) : Decidable a.Canonical := by
  unfold BigInt.Canonical; infer_instance

/-- The characters of a string after its optional leading sign, in the words
of the specification: "an optional leading `+` or `-`", then "every remaining
character". -/
def afterSign : List Char → List Char
  | '+' :: t => t
  | '-' :: t => t
  | s => s

/-- The non-empty strings the specification rejects: a lone sign character,
or a string in which some character after the optional leading sign is not an
ASCII digit `0`-`9`. -/
def Malformed (s : List Char) : Prop :=
  s = ['+'] ∨ s = ['-'] ∨ ∃ c ∈ afterSign s, c.isDigit = false

instance (s : List Char) : Decidable (Malformed s) := by
  unfold Malformed; infer_instance

/-- The text of a digit vector, in the words of the specification: every
digit once, from the most-significant index down to index 0. -/
def digitsText : List Nat → String
  | [] => ""
  | d :: ds => digitsText ds ++ toString d

/-- A syntactically valid decimal string, in the words of the specification:
an optional sign followed by one or more digits. -/
def ValidDecimal (s : List Char) : Prop :=
  afterSign s ≠ [] ∧ ∀ c ∈ afterSign s, c.isDigit = true

instance (s : List Char) : Decidable (ValidDecimal s) := by
  unfold ValidDecimal; infer_instance

/-- The digits that a list of digit characters denotes, in the order of the
characters (most-significant first). -/
def digitsOf (cs : List Char) : List Nat := cs.map (fun c => c.toNat - 48)

/-- The sign flag that `operator=(const string &)` leaves in the receiver:
set by a leading `-`, cleared by a leading `+`, and otherwise the flag the
receiver had. -/
def flagAfterAssign (self : BigInt) (s : List Char) : Bool :=
  if s.head? = some '-' then true else if s.head? = some '+' then false else self.isNegative

/-! ## Digit vectors and their value -/

theorem idx_ok (v : List Nat) (i : Nat) (h : i < v.length) : idx v i = .ok (v.getD i 0) := by
  unfold idx
  simp [List.getD, List.getElem?_eq_getElem h]

theorem atIdx_ok (v : List Nat) (i : Nat) (h : i < v.length) : atIdx v i = .ok (v.getD i 0) := by
  unfold atIdx
  simp [List.getD, List.getElem?_eq_getElem h]

theorem getD_le_nine (v : List Nat) (h : ∀ d ∈ v, d ≤ 9) (i : Nat) : v.getD i 0 ≤ 9 := by
  by_cases hi : i < v.length
  · rw [List.getD_eq_getElem v 0 hi]
    exact h _ (List.getElem_mem hi)
  · rw [List.getD_eq_default v 0 (by omega)]
    omega

theorem set_le_nine (v : List Nat) (h : ∀ d ∈ v, d ≤ 9) (i x : Nat) (hx : x ≤ 9) :
    ∀ d ∈ v.set i x, d ≤ 9 := by
  intro d hd
  rcases List.mem_or_eq_of_mem_set hd with h1 | h1
  · exact h d h1
  · omega

theorem digitsValue_set (v : List Nat) (i x : Nat) (h : i < v.length) :
    digitsValue (v.set i x) + v.getD i 0 * 10 ^ i = digitsValue v + x * 10 ^ i := by
  induction v generalizing i with
  | nil => simp at h
  | cons d ds ih =>
    cases i with
    | zero => simp [digitsValue]; omega
    | succ k =>
      have hk : k < ds.length := by simpa using h
      have := ih k hk
      simp only [List.set_cons_succ, digitsValue, List.getD_cons_succ, pow_succ]
      nlinarith [this]

theorem digitsValue_append (a b : List Nat) :
    digitsValue (a ++ b) = digitsValue a + 10 ^ a.length * digitsValue b := by
  induction a with
  | nil => simp [digitsValue]
  | cons d ds ih =>
    show d + 10 * digitsValue (ds ++ b)
      = d + 10 * digitsValue ds + 10 ^ (ds.length + 1) * digitsValue b
    rw [ih, pow_succ]; ring

theorem digitsValue_lt (v : List Nat) (h : ∀ d ∈ v, d ≤ 9) : digitsValue v < 10 ^ v.length := by
  induction v with
  | nil => simp [digitsValue]
  | cons d ds ih =>
    have h1 : d ≤ 9 := h d (by simp)
    have h2 := ih (fun e he => h e (by simp [he]))
    simp only [digitsValue, List.length_cons, pow_succ]
    omega

theorem digitsValue_drop (v : List Nat) (i : Nat) (h : i < v.length) :
    digitsValue (v.drop i) = v.getD i 0 + 10 * digitsValue (v.drop (i + 1)) := by
  induction v generalizing i with
  | nil => simp at h
  | cons d ds ih =>
    cases i with
    | zero => simp [digitsValue]
    | succ k =>
      have hk : k < ds.length := by simpa using h
      simpa using ih k hk

theorem getD_mul_pow_le (v : List Nat) (i : Nat) : v.getD i 0 * 10 ^ i ≤ digitsValue v := by
  induction v generalizing i with
  | nil => simp
  | cons d ds ih =>
    cases i with
    | zero => simp [digitsValue]
    | succ k =>
      have := ih k
      simp only [List.getD_cons_succ, digitsValue, pow_succ]
      nlinarith [this]

theorem digitsValue_nil : digitsValue [] = 0 := rfl

theorem digitsValue_cons (d : Nat) (ds : List Nat) :
    digitsValue (d :: ds) = d + 10 * digitsValue ds := rfl

/-- One step of a carry chain: replacing digit `x` by `a` and passing `q` on
adds `t` at weight `P`. -/
theorem carry_step (N N1 P x a q t D r : Nat) (h1 : N1 + x * P = N + a * P)
    (h4 : a + 10 * q = x + t) (h3 : r = N1 + P * 10 * (q + D)) :
    r = N + P * (t + 10 * D) := by
  zify at *
  linear_combination h3 + h1 + (P : Int) * h4

/-! ## additionAbs -/

theorem getD_set_self (v : List Nat) (i x : Nat) (h : i < v.length) :
    (v.set i x).getD i 0 = x := by
  induction v generalizing i with
  | nil => simp at h
  | cons d ds ih =>
    cases i with
    | zero => simp
    | succ k =>
      have hk : k < ds.length := by simpa using h
      simpa using ih k hk

theorem additionAbsLoop_ok (rhs : List Nat) (length : Nat) (hr : ∀ d ∈ rhs, d ≤ 9)
    (hrl : rhs.length ≤ length) :
    ∀ (fuel i : Nat) (numbers : List Nat) (carry : Nat),
      (∀ d ∈ numbers, d ≤ 9) → carry ≤ 1 → i ≤ numbers.length →
      (numbers.length ≤ length ∨ numbers.length = i) →
      i ≤ length + 1 → (length < i → carry = 0) →
      (length < i → 10 ^ length ≤ digitsValue numbers) → length + 2 ≤ fuel + i →
      ∃ r, additionAbsLoop rhs length fuel i numbers carry = .ok r ∧ (∀ d ∈ r, d ≤ 9) ∧
        digitsValue r = digitsValue numbers + 10 ^ i * (carry + digitsValue (rhs.drop i)) ∧
        (r.length = length ∨ (r.length = length + 1 ∧ 10 ^ length ≤ digitsValue r)) := by
  intro fuel
  induction fuel with
  | zero => intro i numbers carry _ _ _ _ h1 _ _ h2; omega
  | succ fuel ih =>
    intro i numbers carry hd hc hi hlen hil hlc htop hfuel
    unfold additionAbsLoop
    by_cases hcond : i < length ∨ carry ≠ 0
    · rw [if_pos hcond]
      have hile : i ≤ length := by
        rcases hcond with h | h
        · omega
        · by_contra hcon
          exact h (hlc (by omega))
      obtain ⟨n1, hn1, hn1len, hn1d, hn1v, hn1x⟩ :
          ∃ n1, (if i = numbers.length then numbers ++ [0] else numbers) = n1 ∧
            i < n1.length ∧ (∀ d ∈ n1, d ≤ 9) ∧ digitsValue n1 = digitsValue numbers ∧
            (n1.length ≤ length ∨ (n1.length = i + 1 ∧ n1.getD i 0 = 0)) := by
        by_cases hpush : i = numbers.length
        · refine ⟨numbers ++ [0], by rw [if_pos hpush], by simp; omega, ?_, ?_, ?_⟩
          · intro d hd1
            rcases List.mem_append.mp hd1 with h | h
            · exact hd d h
            · simp at h; omega
          · rw [digitsValue_append]; simp [digitsValue]
          · right
            refine ⟨by simp; omega, ?_⟩
            rw [hpush]; simp
        · refine ⟨numbers, by rw [if_neg hpush], by omega, hd, rfl, ?_⟩
          left; omega
      simp only [hn1]
      rw [idx_ok n1 i hn1len]
      have hx : n1.getD i 0 ≤ 9 := getD_le_nine n1 hn1d i
      have hset := fun x => digitsValue_set n1 i x hn1len
      have hself := fun x => getD_set_self n1 i x hn1len
      have hge := fun x => getD_mul_pow_le (n1.set i x) i
      generalize hxe : n1.getD i 0 = x at hx hset hn1x
      by_cases hir : i < rhs.length
      · have hy : rhs.getD i 0 ≤ 9 := getD_le_nine rhs hr i
        simp only [if_pos hir, idx_ok rhs i hir, bind, Except.bind, pure, Except.pure]
        have hdrop := digitsValue_drop rhs i hir
        generalize hye : rhs.getD i 0 = y at hy hdrop
        have hs : (x + y + carry) % 256 = x + y + carry := by omega
        have h2 : (x + y + carry) % 10 % 256 = (x + y + carry) % 10 := by omega
        have h3 : (x + y + carry) / 10 % 256 = (x + y + carry) / 10 := by omega
        rw [hs, h2, h3]
        obtain ⟨r, hr1, hr2, hr3, hr4⟩ := ih (i + 1)
          (n1.set i ((x + y + carry) % 10)) ((x + y + carry) / 10)
          (set_le_nine n1 hn1d i _ (by omega)) (by omega) (by simp; omega)
          (by simp; omega) (by omega) (by intro; omega) (by intro; omega) (by omega)
        refine ⟨r, hr1, hr2, ?_, hr4⟩
        rw [pow_succ] at hr3
        rw [hdrop, ← hn1v]
        have h := carry_step _ _ _ _ _ _ (y + carry) _ _
          (hset ((x + y + carry) % 10)) (by omega) hr3
        rw [h]; ring
      · simp only [if_neg hir, bind, Except.bind, pure, Except.pure]
        have hs : (x + carry) % 256 = x + carry := by omega
        have h2 : (x + carry) % 10 % 256 = (x + carry) % 10 := by omega
        have h3 : (x + carry) / 10 % 256 = (x + carry) / 10 := by omega
        rw [hs, h2, h3]
        obtain ⟨r, hr1, hr2, hr3, hr4⟩ := ih (i + 1)
          (n1.set i ((x + carry) % 10)) ((x + carry) / 10)
          (set_le_nine n1 hn1d i _ (by omega)) (by omega) (by simp; omega)
          (by simp; omega) (by omega) (by intro; omega)
          (by
            intro hlt
            have hil2 : i = length := by omega
            have hc1 : carry = 1 := by
              rcases hcond with h | h
              · omega
              · omega
            have hx0 : x = 0 := by omega
            have h4 := hge ((x + carry) % 10)
            rw [hself] at h4
            have h5 : (x + carry) % 10 = 1 := by omega
            rw [h5] at h4 ⊢
            rw [← hil2]
            omega)
          (by omega)
        refine ⟨r, hr1, hr2, ?_, hr4⟩
        have hd0 : ∀ k, i ≤ k → rhs.drop k = [] := fun k hk =>
          List.drop_eq_nil_of_le (by omega)
        rw [pow_succ, hd0 (i + 1) (by omega)] at hr3
        rw [hd0 i le_rfl, ← hn1v]
        have h := carry_step _ _ _ _ _ _ carry _ _
          (hset ((x + carry) % 10)) (by omega) hr3
        rw [h, digitsValue_nil]
    · rw [if_neg hcond]
      have hc0 : carry = 0 := by
        by_contra h; exact hcond (Or.inr h)
      have hd0 : rhs.drop i = [] := List.drop_eq_nil_of_le (by omega)
      refine ⟨numbers, rfl, hd, by simp [hd0, hc0, digitsValue_nil], ?_⟩
      by_cases hil2 : i = length
      · left; omega
      · right
        exact ⟨by omega, htop (by omega)⟩

theorem additionAbs_ok (a b : BigInt) (ha : ∀ d ∈ a.numbers, d ≤ 9)
    (hb : ∀ d ∈ b.numbers, d ≤ 9) :
    ∃ r, a.additionAbs b = .ok r ∧ r.isNegative = a.isNegative ∧
      (∀ d ∈ r.numbers, d ≤ 9) ∧
      digitsValue r.numbers = digitsValue a.numbers + digitsValue b.numbers ∧
      (r.numbers.length = max a.numbers.length b.numbers.length ∨
        (r.numbers.length = max a.numbers.length b.numbers.length + 1 ∧
          10 ^ max a.numbers.length b.numbers.length ≤ digitsValue r.numbers)) := by
  obtain ⟨r, h1, h2, h3, h4⟩ := additionAbsLoop_ok b.numbers
    (max a.numbers.length b.numbers.length) hb (le_max_right _ _)
    (max a.numbers.length b.numbers.length + 3) 0 a.numbers 0 ha (by omega) (by omega)
    (Or.inl (le_max_left _ _)) (by omega) (by intro; rfl) (by intro h; omega) (by omega)
  refine ⟨⟨a.isNegative, r⟩, ?_, rfl, h2, ?_, h4⟩
  · simp only [additionAbs, h1, bind, Except.bind, pure, Except.pure]
  · simpa using h3

/-! ## Trimming and subtractionAbs -/

theorem trimLoop_ok : ∀ (fuel : Nat) (v : List Nat), v.length < fuel →
    ∃ r, trimLoop fuel v = .ok r ∧ digitsValue r = digitsValue v ∧ (∀ d ∈ r, d ∈ v) ∧
      (v ≠ [] → r ≠ []) ∧ (r.getLast? = some 0 → r = [0]) := by
  intro fuel
  induction fuel with
  | zero => intro v h; omega
  | succ fuel ih =>
    intro v hv
    unfold trimLoop
    by_cases hcond : v.length > 1 ∧ v.getLast? = some 0
    · rw [if_pos hcond]
      have hsplit : v.dropLast ++ [0] = v := List.dropLast_append_getLast? 0 (by simp [hcond.2])
      obtain ⟨r, h1, h2, h3, h4, h5⟩ := ih v.dropLast (by rw [List.length_dropLast]; omega)
      refine ⟨r, h1, ?_, fun d hd => List.mem_of_mem_dropLast (h3 d hd), ?_, h5⟩
      · rw [h2]
        conv_rhs => rw [← hsplit, digitsValue_append]
        simp [digitsValue_cons, digitsValue_nil]
      · intro _
        apply h4
        intro h0
        have := congrArg List.length h0
        rw [List.length_dropLast] at this
        simp at this
        omega
    · rw [if_neg hcond]
      refine ⟨v, rfl, rfl, fun d hd => hd, fun h => h, ?_⟩
      intro h0
      have hlen : v.length ≤ 1 := by
        by_contra hcon
        exact hcond ⟨by omega, h0⟩
      match v, h0, hlen with
      | [x], h0, _ => simpa using h0
      | _ :: _ :: _, _, hlen => simp at hlen

theorem subtractionAbsLoop_ok (rhs : List Nat) (hr : ∀ d ∈ rhs, d ≤ 9) :
    ∀ (fuel i : Nat) (numbers : List Nat) (borrow : Nat),
      (∀ d ∈ numbers, d ≤ 9) → borrow ≤ 1 → i ≤ numbers.length →
      numbers.length < fuel + i → rhs.length ≤ numbers.length →
      ∃ r bout, subtractionAbsLoop rhs fuel i numbers borrow = .ok r ∧ (∀ d ∈ r, d ≤ 9) ∧
        r.length = numbers.length ∧ bout ≤ 1 ∧
        digitsValue r + 10 ^ i * (borrow + digitsValue (rhs.drop i))
          = digitsValue numbers + bout * 10 ^ numbers.length := by
  intro fuel
  induction fuel with
  | zero => intro i numbers borrow _ _ h1 h2 _; omega
  | succ fuel ih =>
    intro i numbers borrow hd hb hi hfuel hrl
    unfold subtractionAbsLoop
    by_cases hcond : i < numbers.length
    · rw [if_pos hcond, idx_ok numbers i hcond]
      have hx : numbers.getD i 0 ≤ 9 := getD_le_nine numbers hd i
      have hset := fun x => digitsValue_set numbers i x hcond
      generalize hxe : numbers.getD i 0 = x at hx hset
      have key : ∀ y : Nat, y ≤ 9 →
          digitsValue (rhs.drop i) = y + 10 * digitsValue (rhs.drop (i + 1)) →
          ∀ sub : Nat, sub = u8 ((x : Int) - (y : Int) - (borrow : Int)) →
          ∃ r bout,
            (if sub > x then
                subtractionAbsLoop rhs fuel (i + 1) (numbers.set i (u8 ((sub : Int) + 10))) 1
              else subtractionAbsLoop rhs fuel (i + 1) (numbers.set i sub) 0) = .ok r ∧
            (∀ d ∈ r, d ≤ 9) ∧ r.length = numbers.length ∧ bout ≤ 1 ∧
            digitsValue r + 10 ^ i * (borrow + digitsValue (rhs.drop i))
              = digitsValue numbers + bout * 10 ^ numbers.length := by
        intro y hy hdrop sub hsub
        subst hsub
        by_cases hneg : (x : Int) - (y : Int) - (borrow : Int) < 0
        · have h1 : u8 ((x : Int) - (y : Int) - (borrow : Int)) > x := by unfold u8; omega
          have h2 : ((u8 ((u8 ((x : Int) - (y : Int) - (borrow : Int)) : Int) + 10) : Nat) : Int)
              = (x : Int) - y - borrow + 10 := by unfold u8; omega
          rw [if_pos h1]
          generalize u8 ((u8 ((x : Int) - (y : Int) - (borrow : Int)) : Int) + 10) = nd at h2
          obtain ⟨r, bout, hr1, hr2, hr3, hr4, hr5⟩ := ih (i + 1) (numbers.set i nd) 1
            (set_le_nine numbers hd i nd (by omega)) (by omega) (by simp; omega)
            (by simp; omega) (by simpa using hrl)
          refine ⟨r, bout, hr1, hr2, by simpa using hr3, hr4, ?_⟩
          rw [hdrop]
          have h3 := hset nd
          rw [List.length_set, pow_succ] at hr5
          zify at hr5 h3 ⊢
          linear_combination hr5 + h3 + (10 : Int) ^ i * h2
        · have h1 : ¬ u8 ((x : Int) - (y : Int) - (borrow : Int)) > x := by unfold u8; omega
          have h2 : ((u8 ((x : Int) - (y : Int) - (borrow : Int)) : Nat) : Int)
              = (x : Int) - y - borrow := by unfold u8; omega
          rw [if_neg h1]
          generalize u8 ((x : Int) - (y : Int) - (borrow : Int)) = nd at h2
          obtain ⟨r, bout, hr1, hr2, hr3, hr4, hr5⟩ := ih (i + 1) (numbers.set i nd) 0
            (set_le_nine numbers hd i nd (by omega)) (by omega) (by simp; omega)
            (by simp; omega) (by simpa using hrl)
          refine ⟨r, bout, hr1, hr2, by simpa using hr3, hr4, ?_⟩
          rw [hdrop]
          have h3 := hset nd
          rw [List.length_set, pow_succ] at hr5
          zify at hr5 h3 ⊢
          linear_combination hr5 + h3 + (10 : Int) ^ i * h2
      by_cases hir : i < rhs.length
      · simp only [if_pos hir, idx_ok rhs i hir, bind, Except.bind, pure, Except.pure]
        exact key (rhs.getD i 0) (getD_le_nine rhs hr i) (digitsValue_drop rhs i hir) _ rfl
      · simp only [if_neg hir, bind, Except.bind, pure, Except.pure]
        refine key 0 (by omega) ?_ _ (by simp)
        rw [List.drop_eq_nil_of_le (by omega), List.drop_eq_nil_of_le (by omega)]
        simp [digitsValue_nil]
    · rw [if_neg hcond]
      have hi2 : i = numbers.length := by omega
      refine ⟨numbers, borrow, rfl, hd, rfl, hb, ?_⟩
      rw [List.drop_eq_nil_of_le (by omega), digitsValue_nil, hi2]
      ring

theorem subtractionAbs_ok (a b : BigInt) (ha : ∀ d ∈ a.numbers, d ≤ 9)
    (hb : ∀ d ∈ b.numbers, d ≤ 9) (hne : a.numbers ≠ [])
    (hlen : b.numbers.length ≤ a.numbers.length)
    (hge : digitsValue b.numbers ≤ digitsValue a.numbers) :
    ∃ r, a.subtractionAbs b = .ok r ∧ r.isNegative = a.isNegative ∧
      CanonicalDigits r.numbers ∧
      digitsValue r.numbers + digitsValue b.numbers = digitsValue a.numbers := by
  obtain ⟨r, bout, h1, h2, h3, h4, h5⟩ := subtractionAbsLoop_ok b.numbers hb
    (a.numbers.length + 1) 0 a.numbers 0 ha (by omega) (by omega) (by omega) hlen
  obtain ⟨t, t1, t2, t3, t4, t5⟩ := trimLoop_ok (r.length + 1) r (by omega)
  have hlt := digitsValue_lt r h2
  rw [h3] at hlt
  simp only [pow_zero, List.drop_zero, zero_add, one_mul] at h5
  have hb0 : bout = 0 := by
    rcases Nat.eq_zero_or_pos bout with h | h
    · exact h
    · have : bout = 1 := by omega
      subst this
      omega
  subst hb0
  refine ⟨⟨a.isNegative, t⟩, ?_, rfl, ⟨?_, fun d hd => h2 d (t3 d hd), t5⟩, ?_⟩
  · simp only [subtractionAbs, h1, t1, bind, Except.bind, pure, Except.pure]
  · apply t4
    intro h0
    rw [h0] at h3
    exact hne (List.length_eq_zero.mp h3.symm)
  · show digitsValue t + _ = _
    rw [t2]; omega

/-! ## isAbsGreaterOrEqual -/

theorem digitsValue_take_succ (v : List Nat) (i : Nat) (h : i < v.length) :
    digitsValue (v.take (i + 1)) = digitsValue (v.take i) + v.getD i 0 * 10 ^ i := by
  induction v generalizing i with
  | nil => simp at h
  | cons d ds ih =>
    cases i with
    | zero => simp [digitsValue_cons, digitsValue_nil]
    | succ k =>
      have hk : k < ds.length := by simpa using h
      simp only [List.take_succ_cons, digitsValue_cons, List.getD_cons_succ, ih k hk, pow_succ]
      ring

theorem digitsValue_take_lt (v : List Nat) (h : ∀ d ∈ v, d ≤ 9) (i : Nat) :
    digitsValue (v.take i) < 10 ^ i := by
  have h1 := digitsValue_lt (v.take i) (fun d hd => h d (List.mem_of_mem_take hd))
  have h2 : 10 ^ (v.take i).length ≤ 10 ^ i :=
    Nat.pow_le_pow_right (by omega) (by simp)
  omega

theorem canonical_pow_le (v : List Nat) (h : CanonicalDigits v) (h2 : 2 ≤ v.length) :
    10 ^ (v.length - 1) ≤ digitsValue v := by
  obtain ⟨hne, _, hlast⟩ := h
  obtain ⟨l, hl⟩ : ∃ l, v.getLast? = some l := by
    cases hv : v.getLast? with
    | none => exact absurd (List.getLast?_eq_none_iff.mp hv) hne
    | some l => exact ⟨l, rfl⟩
  have hsplit : v.dropLast ++ [l] = v := List.dropLast_append_getLast? l (by simp [hl])
  have hl0 : l ≠ 0 := by
    intro h0
    subst h0
    have := hlast hl
    rw [this] at h2
    simp at h2
  have hv : digitsValue v = digitsValue v.dropLast + 10 ^ (v.length - 1) * l := by
    conv_lhs => rw [← hsplit, digitsValue_append]
    simp [digitsValue_cons, digitsValue_nil]
  rw [hv]
  have : 10 ^ (v.length - 1) * 1 ≤ 10 ^ (v.length - 1) * l :=
    Nat.mul_le_mul_left _ (by omega)
  omega

theorem canonical_length_lt (a b : List Nat) (ha : ∀ d ∈ a, d ≤ 9) (hb : CanonicalDigits b)
    (h : a.length < b.length) (hne : a ≠ []) : digitsValue a < digitsValue b := by
  have h0 : 0 < a.length := List.length_pos.mpr hne
  have h1 := digitsValue_lt a ha
  have h2 := canonical_pow_le b hb (by omega)
  have h3 : 10 ^ a.length ≤ 10 ^ (b.length - 1) := Nat.pow_le_pow_right (by omega) (by omega)
  omega

theorem isAbsGreaterOrEqualLoop_ok (a b : List Nat) (ha : ∀ d ∈ a, d ≤ 9)
    (hb : ∀ d ∈ b, d ≤ 9) :
    ∀ i, i < a.length → i < b.length →
      isAbsGreaterOrEqualLoop a b i
        = .ok (decide (digitsValue (a.take (i + 1)) ≥ digitsValue (b.take (i + 1)))) := by
  intro i
  induction i with
  | zero =>
    intro h1 h2
    unfold isAbsGreaterOrEqualLoop
    simp only [idx_ok a 0 h1, idx_ok b 0 h2, bind, Except.bind, pure, Except.pure]
    rw [digitsValue_take_succ a 0 h1, digitsValue_take_succ b 0 h2]
    simp [digitsValue_nil]
  | succ i ih =>
    intro h1 h2
    unfold isAbsGreaterOrEqualLoop
    simp only [idx_ok a (i + 1) h1, idx_ok b (i + 1) h2, bind, Except.bind, pure, Except.pure]
    rw [digitsValue_take_succ a (i + 1) h1, digitsValue_take_succ b (i + 1) h2]
    have hA := digitsValue_take_lt a ha (i + 1)
    have hB := digitsValue_take_lt b hb (i + 1)
    have ih1 := ih (by omega) (by omega)
    generalize a.getD (i + 1) 0 = x
    generalize b.getD (i + 1) 0 = y
    generalize digitsValue (a.take (i + 1)) = A at hA ih1
    generalize digitsValue (b.take (i + 1)) = B at hB ih1
    generalize 10 ^ (i + 1) = P at hA hB
    by_cases hxy : x = y
    · subst hxy
      simp only [ne_eq, not_true_eq_false, if_false]
      rw [ih1]
      congr 1
      rw [decide_eq_decide]
      constructor <;> intro h <;> omega
    · rw [if_pos hxy]
      congr 1
      rw [decide_eq_decide]
      constructor
      · intro h
        have h1 : (y + 1) * P ≤ x * P := Nat.mul_le_mul_right P h
        rw [Nat.add_mul, one_mul] at h1
        show B + y * P ≤ A + x * P
        omega
      · intro h
        by_contra hcon
        have h1 : (x + 1) * P ≤ y * P := Nat.mul_le_mul_right P (by omega)
        rw [Nat.add_mul, one_mul] at h1
        have h2 : B + y * P ≤ A + x * P := h
        omega

theorem isAbsGreaterOrEqual_ok (a b : BigInt) (ha : CanonicalDigits a.numbers)
    (hb : CanonicalDigits b.numbers) :
    a.isAbsGreaterOrEqual b
      = .ok (decide (digitsValue a.numbers ≥ digitsValue b.numbers)) := by
  unfold isAbsGreaterOrEqual
  by_cases hlen : a.numbers.length ≠ b.numbers.length
  · rw [if_pos hlen]
    show Except.ok _ = Except.ok _
    congr 1
    rw [decide_eq_decide]
    constructor
    · intro h
      exact Nat.le_of_lt (canonical_length_lt b.numbers a.numbers hb.2.1 ha h hb.1)
    · intro h
      by_contra hcon
      have := canonical_length_lt a.numbers b.numbers ha.2.1 hb (by omega) ha.1
      omega
  · rw [if_neg hlen]
    have hlen2 : a.numbers.length = b.numbers.length := by omega
    have hpos : 0 < a.numbers.length := List.length_pos.mpr ha.1
    obtain ⟨n, hn⟩ : ∃ n, a.numbers.length = n + 1 := ⟨a.numbers.length - 1, by omega⟩
    rw [hn]
    show isAbsGreaterOrEqualLoop a.numbers b.numbers n = _
    rw [isAbsGreaterOrEqualLoop_ok a.numbers b.numbers ha.2.1 hb.2.1 n (by omega) (by omega)]
    rw [List.take_of_length_le (by omega), List.take_of_length_le (by omega)]

theorem canonical_of_pow_le (v : List Nat) (hne : v ≠ []) (hd : ∀ d ∈ v, d ≤ 9)
    (h : 2 ≤ v.length → 10 ^ (v.length - 1) ≤ digitsValue v) : CanonicalDigits v := by
  refine ⟨hne, hd, fun hlast => ?_⟩
  have hsplit : v.dropLast ++ [0] = v := List.dropLast_append_getLast? 0 (by simp [hlast])
  have hv : digitsValue v = digitsValue v.dropLast := by
    conv_lhs => rw [← hsplit, digitsValue_append]
    simp [digitsValue_cons, digitsValue_nil]
  have hlt := digitsValue_lt v.dropLast (fun d hd1 => hd d (List.mem_of_mem_dropLast hd1))
  rw [List.length_dropLast] at hlt
  have hlen : v.length ≤ 1 := by
    by_contra hcon
    have := h (by omega)
    omega
  match v, hlast, hlen with
  | [x], h0, _ => simpa using h0
  | _ :: _ :: _, _, hlen => simp at hlen

/-- `additionAbs` on canonical digit vectors returns a canonical digit vector
(the loop has no trimming step: the digit it appends last is the carry). -/
theorem additionAbs_canonical (a b : BigInt) (ha : CanonicalDigits a.numbers)
    (hb : CanonicalDigits b.numbers) :
    ∃ r, a.additionAbs b = .ok r ∧ r.isNegative = a.isNegative ∧
      CanonicalDigits r.numbers ∧
      digitsValue r.numbers = digitsValue a.numbers + digitsValue b.numbers := by
  obtain ⟨r, h1, h2, h3, h4, h5⟩ := additionAbs_ok a b ha.2.1 hb.2.1
  refine ⟨r, h1, h2, ?_, h4⟩
  have hla : 0 < a.numbers.length := List.length_pos.mpr ha.1
  apply canonical_of_pow_le r.numbers _ h3
  · intro h2len
    rcases h5 with h5 | ⟨h5, h6⟩
    · rw [h5, h4]
      rcases le_total a.numbers.length b.numbers.length with hab | hab
      · rw [max_eq_right hab] at h5 ⊢
        have := canonical_pow_le b.numbers hb (by omega)
        omega
      · rw [max_eq_left hab] at h5 ⊢
        have := canonical_pow_le a.numbers ha (by omega)
        omega
    · rw [h5]
      simpa using h6
  · intro h0
    rw [h0] at h5
    simp at h5
    omega

/-! ## Signed addition and subtraction -/

theorem canonical_length_le (a b : List Nat) (ha : CanonicalDigits a) (hb : CanonicalDigits b)
    (h : digitsValue b ≤ digitsValue a) : b.length ≤ a.length := by
  by_contra hcon
  have := canonical_length_lt a b ha.2.1 hb (by omega) ha.1
  omega

/-- The third branch of `operator+=` and `operator-=`: with the receiver's
flag already set to `s`, subtract the receiver from a copy of `rhs` and
copy-assign the copy. -/
theorem swapped_subtraction_ok (s : Bool) (a b : BigInt) (ha : CanonicalDigits a.numbers)
    (hb : CanonicalDigits b.numbers) (h : digitsValue a.numbers ≤ digitsValue b.numbers) :
    ∃ r, (copy b).subtractionAbs ⟨s, a.numbers⟩ = .ok r ∧
      operatorAssign ⟨s, a.numbers⟩ r = ⟨b.isNegative, r.numbers⟩ ∧
      CanonicalDigits r.numbers ∧
      digitsValue r.numbers + digitsValue a.numbers = digitsValue b.numbers := by
  obtain ⟨r, h1, h2, h3, h4⟩ := subtractionAbs_ok (copy b) ⟨s, a.numbers⟩ hb.2.1 ha.2.1 hb.1
    (canonical_length_le b.numbers a.numbers hb ha h) h
  refine ⟨r, h1, ?_, h3, h4⟩
  simp only [operatorAssign, h2, copy]

theorem operatorPlusEq_ok (a b : BigInt) (ha : CanonicalDigits a.numbers)
    (hb : CanonicalDigits b.numbers) :
    ∃ r, a.operatorPlusEq b = .ok r ∧ CanonicalDigits r.numbers ∧
      r.value = a.value + b.value := by
  unfold operatorPlusEq
  by_cases hs : a.isNegative = b.isNegative
  · rw [if_pos hs]
    obtain ⟨r, h1, h2, h3, h4⟩ := additionAbs_canonical a b ha hb
    refine ⟨r, h1, h3, ?_⟩
    simp only [BigInt.value, h2, h4, ← hs]
    split <;> push_cast <;> ring
  · rw [if_neg hs, isAbsGreaterOrEqual_ok a b ha hb]
    simp only [bind, Except.bind, pure, Except.pure]
    by_cases hge : digitsValue a.numbers ≥ digitsValue b.numbers
    · simp only [hge, decide_True, if_true]
      obtain ⟨r, h1, h2, h3, h4⟩ := subtractionAbs_ok a b ha.2.1 hb.2.1 ha.1
        (canonical_length_le a.numbers b.numbers ha hb hge) hge
      refine ⟨r, h1, h3, ?_⟩
      simp only [BigInt.value, h2]
      cases hA : a.isNegative <;> cases hB : b.isNegative <;> simp_all <;> omega
    · simp only [hge, decide_False, Bool.false_eq_true, if_false]
      obtain ⟨r, h1, h2, h3, h4⟩ := swapped_subtraction_ok b.isNegative a b ha hb (by omega)
      rw [h1]
      refine ⟨_, rfl, ?_, ?_⟩
      · rw [h2]; exact h3
      · rw [h2]
        simp only [BigInt.value]
        cases hA : a.isNegative <;> cases hB : b.isNegative <;> simp_all <;> omega

/-- What `operator-=` returns on canonical digit vectors.  In its third
branch (equal flags, `|a| < |b|`) the copy assignment restores the flag that
was just flipped, and the result denotes `value b - value a`. -/
theorem operatorMinusEq_ok (a b : BigInt) (ha : CanonicalDigits a.numbers)
    (hb : CanonicalDigits b.numbers) :
    ∃ r, a.operatorMinusEq b = .ok r ∧ CanonicalDigits r.numbers ∧
      r.value = (if a.isNegative = b.isNegative
          ∧ digitsValue a.numbers < digitsValue b.numbers
        then b.value - a.value else a.value - b.value) := by
  unfold operatorMinusEq
  by_cases hs : a.isNegative ≠ b.isNegative
  · rw [if_pos hs]
    obtain ⟨r, h1, h2, h3, h4⟩ := additionAbs_canonical a b ha hb
    refine ⟨r, h1, h3, ?_⟩
    rw [if_neg (fun h => hs h.1)]
    simp only [BigInt.value, h2, h4]
    cases hA : a.isNegative <;> cases hB : b.isNegative <;> simp_all
    all_goals omega
  · rw [if_neg hs, isAbsGreaterOrEqual_ok a b ha hb]
    have hs2 : a.isNegative = b.isNegative := by simpa using hs
    simp only [bind, Except.bind, pure, Except.pure]
    by_cases hge : digitsValue a.numbers ≥ digitsValue b.numbers
    · simp only [hge, decide_True, if_true]
      obtain ⟨r, h1, h2, h3, h4⟩ := subtractionAbs_ok a b ha.2.1 hb.2.1 ha.1
        (canonical_length_le a.numbers b.numbers ha hb hge) hge
      refine ⟨r, h1, h3, ?_⟩
      rw [if_neg (fun h => by omega)]
      simp only [BigInt.value, h2, ← hs2]
      split <;> omega
    · simp only [hge, decide_False, Bool.false_eq_true, if_false]
      obtain ⟨r, h1, h2, h3, h4⟩ :=
        swapped_subtraction_ok (!a.isNegative) a b ha hb (by omega)
      rw [h1]
      refine ⟨_, rfl, ?_, ?_⟩
      · rw [h2]; exact h3
      · rw [h2, if_pos ⟨hs2, by omega⟩]
        simp only [BigInt.value, ← hs2]
        split <;> omega

/-! ## multiplicationAbs -/

theorem multiplicationAbsInner_ok (numbers rhs : List Nat) (i : Nat) (hi : i < numbers.length)
    (hn : ∀ d ∈ numbers, d ≤ 9) (hr : ∀ d ∈ rhs, d ≤ 9) :
    ∀ (fuel j : Nat) (temp : List Nat) (carry : Nat),
      (∀ d ∈ temp, d ≤ 9) → carry ≤ 9 → temp.length = numbers.length + rhs.length →
      j ≤ rhs.length + 1 → (rhs.length < j → carry = 0) → rhs.length + 2 ≤ fuel + j →
      digitsValue temp
          + 10 ^ (i + j) * (carry + numbers.getD i 0 * digitsValue (rhs.drop j))
        < 10 ^ (i + rhs.length + 1) →
      ∃ r, multiplicationAbsInner numbers rhs i fuel j temp carry = .ok r ∧
        (∀ d ∈ r, d ≤ 9) ∧ r.length = temp.length ∧
        digitsValue r = digitsValue temp
          + 10 ^ (i + j) * (carry + numbers.getD i 0 * digitsValue (rhs.drop j)) := by
  intro fuel
  induction fuel with
  | zero => intro j temp carry _ _ _ h1 _ h2; omega
  | succ fuel ih =>
    intro j temp carry hd hc hlen hj hjc hfuel hbound
    unfold multiplicationAbsInner
    by_cases hcond : j < rhs.length ∨ carry ≠ 0
    · rw [if_pos hcond]
      have hjle : j ≤ rhs.length := by
        rcases hcond with h | h
        · omega
        · by_contra hcon
          exact h (hjc (by omega))
      have hij : i + j < temp.length := by omega
      rw [idx_ok temp (i + j) hij]
      have ht : temp.getD (i + j) 0 ≤ 9 := getD_le_nine temp hd (i + j)
      have hset := fun x => digitsValue_set temp (i + j) x hij
      have htle := getD_mul_pow_le temp (i + j)
      have hx : numbers.getD i 0 ≤ 9 := getD_le_nine numbers hn i
      generalize hte : temp.getD (i + j) 0 = t at ht hset htle
      by_cases hjr : j < rhs.length
      · have hy : rhs.getD j 0 ≤ 9 := getD_le_nine rhs hr j
        simp only [if_pos hjr, idx_ok rhs j hjr, idx_ok numbers i hi, bind, Except.bind, pure,
          Except.pure]
        have hdrop := digitsValue_drop rhs j hjr
        generalize hye : rhs.getD j 0 = y at hy hdrop
        have hyx : y * numbers.getD i 0 ≤ 81 := Nat.mul_le_mul hy hx
        generalize hpe : y * numbers.getD i 0 = p at hyx
        have h2 : (t + p + carry) % 10 % 256 = (t + p + carry) % 10 := by omega
        have h3 : (t + p + carry) / 10 % 256 = (t + p + carry) / 10 := by omega
        rw [h2, h3]
        have hq : digitsValue (temp.set (i + j) ((t + p + carry) % 10))
            + 10 ^ (i + j) * 10
              * ((t + p + carry) / 10 + numbers.getD i 0 * digitsValue (rhs.drop (j + 1)))
            = digitsValue temp
              + 10 ^ (i + j) * (carry + numbers.getD i 0 * digitsValue (rhs.drop j)) := by
          have h := carry_step (digitsValue temp)
            (digitsValue (temp.set (i + j) ((t + p + carry) % 10))) (10 ^ (i + j)) t
            ((t + p + carry) % 10) ((t + p + carry) / 10) (p + carry)
            (numbers.getD i 0 * digitsValue (rhs.drop (j + 1))) _
            (hset ((t + p + carry) % 10)) (by omega) rfl
          rw [h, hdrop, ← hpe]; ring
        obtain ⟨r, hr1, hr2, hr3, hr4⟩ := ih (j + 1)
          (temp.set (i + j) ((t + p + carry) % 10)) ((t + p + carry) / 10)
          (set_le_nine temp hd (i + j) _ (by omega)) (by omega) (by simpa using hlen)
          (by omega) (by intro; omega) (by omega)
          (by rw [← add_assoc, pow_succ, hq]; exact hbound)
        refine ⟨r, hr1, hr2, by simpa using hr3, ?_⟩
        rw [hr4, ← add_assoc, pow_succ, hq]
      · simp only [if_neg hjr, bind, Except.bind, pure, Except.pure]
        have hjm : j = rhs.length := by omega
        have hd0 : ∀ k, j ≤ k → rhs.drop k = [] := fun k hk =>
          List.drop_eq_nil_of_le (by omega)
        rw [hd0 j le_rfl, digitsValue_nil] at hbound ⊢
        have hsmall : t + carry ≤ 9 := by
          have h1 : (t + carry) * 10 ^ (i + j) < 10 * 10 ^ (i + j) := by
            rw [hjm] at htle hbound ⊢
            rw [pow_succ] at hbound
            nlinarith [htle, hbound]
          have := Nat.lt_of_mul_lt_mul_right h1
          omega
        have h2 : (t + carry) % 10 % 256 = t + carry := by omega
        have h3 : (t + carry) / 10 % 256 = 0 := by omega
        rw [h2, h3]
        have hq : digitsValue (temp.set (i + j) (t + carry))
            = digitsValue temp + 10 ^ (i + j) * carry := by
          have := hset (t + carry)
          rw [Nat.add_mul] at this
          rw [Nat.mul_comm _ carry]
          omega
        obtain ⟨r, hr1, hr2, hr3, hr4⟩ := ih (j + 1) (temp.set (i + j) (t + carry)) 0
          (set_le_nine temp hd (i + j) _ hsmall) (by omega) (by simpa using hlen)
          (by omega) (by intro; rfl) (by omega)
          (by
            rw [hd0 (j + 1) (by omega), digitsValue_nil, hq]
            simpa using hbound)
        refine ⟨r, hr1, hr2, by simpa using hr3, ?_⟩
        rw [hr4, hd0 (j + 1) (by omega), digitsValue_nil, hq]
        simp
    · rw [if_neg hcond]
      have hc0 : carry = 0 := by
        by_contra h; exact hcond (Or.inr h)
      have hd0 : rhs.drop j = [] := List.drop_eq_nil_of_le (by omega)
      exact ⟨temp, rfl, hd, rfl, by simp [hd0, hc0, digitsValue_nil]⟩

theorem multiplicationAbsOuter_ok (numbers rhs : List Nat) (hn : ∀ d ∈ numbers, d ≤ 9)
    (hr : ∀ d ∈ rhs, d ≤ 9) :
    ∀ (fuel i : Nat) (temp : List Nat),
      (∀ d ∈ temp, d ≤ 9) → temp.length = numbers.length + rhs.length →
      i ≤ numbers.length → numbers.length < fuel + i →
      digitsValue temp = digitsValue (numbers.take i) * digitsValue rhs →
      ∃ r, multiplicationAbsOuter numbers rhs fuel i temp = .ok r ∧ (∀ d ∈ r, d ≤ 9) ∧
        r.length = numbers.length + rhs.length ∧
        digitsValue r = digitsValue numbers * digitsValue rhs := by
  intro fuel
  induction fuel with
  | zero => intro i temp _ _ h1 h2 _; omega
  | succ fuel ih =>
    intro i temp hd hlen hi hfuel hval
    unfold multiplicationAbsOuter
    by_cases hcond : i < numbers.length
    · rw [if_pos hcond]
      have hnext : digitsValue temp
          + 10 ^ i * (numbers.getD i 0 * digitsValue rhs)
          = digitsValue (numbers.take (i + 1)) * digitsValue rhs := by
        rw [hval, digitsValue_take_succ numbers i hcond]; ring
      have hbound : digitsValue (numbers.take (i + 1)) * digitsValue rhs
          < 10 ^ (i + rhs.length + 1) := by
        have h1 := digitsValue_take_lt numbers hn (i + 1)
        have h2 := digitsValue_lt rhs hr
        have h3 : digitsValue (numbers.take (i + 1)) * digitsValue rhs
            < 10 ^ (i + 1) * 10 ^ rhs.length :=
          Nat.mul_lt_mul_of_lt_of_le h1 (Nat.le_of_lt h2) (by positivity)
        have h4 : 10 ^ (i + rhs.length + 1) = 10 ^ (i + 1) * 10 ^ rhs.length := by
          rw [← pow_add]; congr 1; omega
        omega
      obtain ⟨t, t1, t2, t3, t4⟩ := multiplicationAbsInner_ok numbers rhs i hcond hn hr
        (temp.length + 1) 0 temp 0 hd (by omega) hlen (by omega) (by intro; rfl) (by omega)
        (by
          simp only [Nat.add_zero, List.drop_zero, Nat.zero_add]
          rw [hnext]; exact hbound)
      simp only [Nat.add_zero, List.drop_zero, Nat.zero_add] at t4
      simp only [t1, bind, Except.bind]
      obtain ⟨r, h1, h2, h3, h4⟩ := ih (i + 1) t t2 (by omega) (by omega) (by omega)
        (by rw [t4, hnext])
      exact ⟨r, h1, h2, h3, h4⟩
    · rw [if_neg hcond]
      refine ⟨temp, rfl, hd, hlen, ?_⟩
      rw [hval, List.take_of_length_le (by omega)]

theorem digitsValue_replicate_zero (k : Nat) : digitsValue (List.replicate k 0) = 0 := by
  induction k with
  | zero => rfl
  | succ k ih => simp [List.replicate_succ, digitsValue_cons, ih]

theorem multiplicationAbs_ok (a b : BigInt) (ha : ∀ d ∈ a.numbers, d ≤ 9)
    (hb : ∀ d ∈ b.numbers, d ≤ 9) (hne : a.numbers ≠ []) :
    ∃ r, a.multiplicationAbs b = .ok r ∧ r.isNegative = a.isNegative ∧
      CanonicalDigits r.numbers ∧
      digitsValue r.numbers = digitsValue a.numbers * digitsValue b.numbers := by
  obtain ⟨r, h1, h2, h3, h4⟩ := multiplicationAbsOuter_ok a.numbers b.numbers ha hb
    (a.numbers.length + 1) 0 (List.replicate (a.numbers.length + b.numbers.length) 0)
    (by intro d hd; rw [(List.mem_replicate.mp hd).2]; omega) (by simp) (by omega) (by omega)
    (by rw [digitsValue_replicate_zero]; simp [digitsValue_nil])
  obtain ⟨t, t1, t2, t3, t4, t5⟩ := trimLoop_ok (r.length + 1) r (by omega)
  refine ⟨⟨a.isNegative, t⟩, ?_, rfl, ⟨?_, fun d hd => h2 d (t3 d hd), t5⟩, ?_⟩
  · simp only [multiplicationAbs, h1, t1, bind, Except.bind, pure, Except.pure]
  · apply t4
    intro h0
    rw [h0] at h3
    have hpos : 0 < a.numbers.length := List.length_pos.mpr hne
    simp at h3
    omega
  · show digitsValue t = _
    rw [t2, h4]

theorem operatorTimesEq_ok (a b : BigInt) (ha : CanonicalDigits a.numbers)
    (hb : CanonicalDigits b.numbers) :
    ∃ r, a.operatorTimesEq b = .ok r ∧ CanonicalDigits r.numbers ∧
      r.isNegative = xor a.isNegative b.isNegative ∧
      digitsValue r.numbers = digitsValue a.numbers * digitsValue b.numbers := by
  unfold operatorTimesEq
  cases hA : a.isNegative <;> cases hB : b.isNegative
  · obtain ⟨r, h1, h2, h3, h4⟩ := multiplicationAbs_ok a b ha.2.1 hb.2.1 ha.1
    refine ⟨r, by simpa using h1, h3, by simp [h2, hA], h4⟩
  · obtain ⟨r, h1, h2, h3, h4⟩ := multiplicationAbs_ok ⟨true, a.numbers⟩ b ha.2.1 hb.2.1 ha.1
    refine ⟨r, by simpa using h1, h3, by simp [h2], h4⟩
  · obtain ⟨r, h1, h2, h3, h4⟩ := multiplicationAbs_ok ⟨true, a.numbers⟩ b ha.2.1 hb.2.1 ha.1
    refine ⟨r, by simpa using h1, h3, by simp [h2], h4⟩
  · obtain ⟨r, h1, h2, h3, h4⟩ := multiplicationAbs_ok ⟨false, a.numbers⟩ b ha.2.1 hb.2.1 ha.1
    refine ⟨r, by simpa using h1, h3, by simp [h2], h4⟩

theorem copy_eq (a : BigInt) : copy a = a := rfl

/-! ## Parsing -/

theorem isDigitChar_eq (c : Char) : isDigitChar c = c.isDigit := by
  unfold isDigitChar Char.isDigit Char.toNat
  rw [Bool.eq_iff_iff]
  simp only [decide_eq_true_eq, Bool.and_eq_true, ge_iff_le, UInt32.le_def]
  have h1 : (48 : UInt32).toNat = 48 := rfl
  have h2 : (57 : UInt32).toNat = 57 := rfl
  constructor
  · intro h
    constructor
    · show (48 : UInt32).toNat ≤ c.val.toNat
      omega
    · show c.val.toNat ≤ (57 : UInt32).toNat
      omega
  · intro ⟨a, b⟩
    have a1 : (48 : UInt32).toNat ≤ c.val.toNat := a
    have b1 : c.val.toNat ≤ (57 : UInt32).toNat := b
    omega

theorem ctorDigits_error (cs : List Char) (acc : List Nat)
    (h : ∃ c ∈ cs, c.isDigit = false) :
    ctorDigits cs acc
      = .error (.invalidArgument "Invalid input: contains non-digit character") := by
  induction cs generalizing acc with
  | nil => simp at h
  | cons c cs ih =>
    unfold ctorDigits
    by_cases hc : c.isDigit = true
    · simp only [isDigitChar_eq, hc, Bool.not_true, Bool.false_eq_true, if_false]
      apply ih
      obtain ⟨d, hd, hd2⟩ := h
      rcases List.mem_cons.mp hd with h1 | h1
      · subst h1; simp [hc] at hd2
      · exact ⟨d, h1, hd2⟩
    · simp only [isDigitChar_eq, Bool.not_eq_true] at hc ⊢
      simp [hc]

theorem ctorDigits_ok (cs : List Char) (acc : List Nat)
    (h : ¬ ∃ c ∈ cs, c.isDigit = false) :
    ∃ r, ctorDigits cs acc = .ok r := by
  induction cs generalizing acc with
  | nil => exact ⟨acc, rfl⟩
  | cons c cs ih =>
    unfold ctorDigits
    have hc : c.isDigit = true := by
      by_contra hcon
      exact h ⟨c, by simp, by simpa using hcon⟩
    simp only [isDigitChar_eq, hc, Bool.not_true, Bool.false_eq_true, if_false]
    apply ih
    rintro ⟨d, hd, hd2⟩
    exact h ⟨d, List.mem_cons_of_mem _ hd, hd2⟩

theorem afterSign_other (c : Char) (t : List Char) (h1 : c ≠ '+') (h2 : c ≠ '-') :
    afterSign (c :: t) = c :: t := by
  unfold afterSign
  split
  · simp_all
  · simp_all
  · rfl

/-! ## Claims -/

/-- C1 (the code departs from it): `"100" - "999"`.  Both operands are
non-negative and `|100| < |999|`, so `operator-=` takes its third branch:
it flips the receiver's flag, and then the copy assignment `*this = temp`
overwrites the flag with the flag of the copy of `rhs`.  The result is
`+899`, rendered `"899"`, while `100 - 999 = -899`. -/
theorem operatorMinus_100_999 :
    ofString "100".toList = .ok ⟨false, [0, 0, 1]⟩ ∧
    ofString "999".toList = .ok ⟨false, [9, 9, 9]⟩ ∧
    operatorMinus ⟨false, [0, 0, 1]⟩ ⟨false, [9, 9, 9]⟩ = .ok ⟨false, [9, 9, 8]⟩ ∧
    BigInt.operatorMinusEq ⟨false, [0, 0, 1]⟩ ⟨false, [9, 9, 9]⟩ = .ok ⟨false, [9, 9, 8]⟩ ∧
    operatorOut "" ⟨false, [9, 9, 8]⟩ = .ok "899" ∧
    BigInt.value ⟨false, [9, 9, 8]⟩ = 899 ∧
    BigInt.value ⟨false, [0, 0, 1]⟩ - BigInt.value ⟨false, [9, 9, 9]⟩ = -899 := by
  refine ⟨rfl, rfl, rfl, rfl, rfl, by decide, by decide⟩

/-- C2: for canonical `a` and `b`, `operator+` and `operator+=` return a
value that denotes the integer `value a + value b`, whatever the signs and
the relative magnitudes. -/
theorem operatorPlus_exact (a b : BigInt) (ha : a.Canonical) (hb : b.Canonical) :
    ∃ r, operatorPlus a b = .ok r ∧ a.operatorPlusEq b = .ok r ∧
      r.value = a.value + b.value := by
  obtain ⟨r, h1, _, h3⟩ := operatorPlusEq_ok a b ha.1 hb.1
  exact ⟨r, by rw [operatorPlus, copy_eq]; exact h1, h1, h3⟩

/-- C2 at `"123" + "456"`, which renders as `"579"`. -/
theorem operatorPlus_exact_witness :
    BigInt.Canonical ⟨false, [3, 2, 1]⟩ ∧ BigInt.Canonical ⟨false, [6, 5, 4]⟩ ∧
    (∃ r, operatorPlus ⟨false, [3, 2, 1]⟩ ⟨false, [6, 5, 4]⟩ = .ok r ∧
      BigInt.operatorPlusEq ⟨false, [3, 2, 1]⟩ ⟨false, [6, 5, 4]⟩ = .ok r ∧
      r.value = BigInt.value ⟨false, [3, 2, 1]⟩ + BigInt.value ⟨false, [6, 5, 4]⟩) ∧
    ofString "123".toList = .ok ⟨false, [3, 2, 1]⟩ ∧
    ofString "456".toList = .ok ⟨false, [6, 5, 4]⟩ ∧
    (operatorPlus ⟨false, [3, 2, 1]⟩ ⟨false, [6, 5, 4]⟩ >>= operatorOut "") = .ok "579" :=
  ⟨by decide, by decide,
    operatorPlus_exact ⟨false, [3, 2, 1]⟩ ⟨false, [6, 5, 4]⟩ (by decide) (by decide),
    rfl, rfl, rfl⟩

/-- C3: for canonical `a` and `b`, `operator*` and `operator*=` return a
value that denotes `value a * value b`: its digits denote `|a| * |b|` and its
sign flag is set exactly when one operand's flag is set and the other's is
not. -/
theorem operatorTimes_exact (a b : BigInt) (ha : a.Canonical) (hb : b.Canonical) :
    ∃ r, operatorTimes a b = .ok r ∧ a.operatorTimesEq b = .ok r ∧
      r.value = a.value * b.value ∧
      digitsValue r.numbers = digitsValue a.numbers * digitsValue b.numbers ∧
      r.isNegative = xor a.isNegative b.isNegative := by
  obtain ⟨r, h1, _, h3, h4⟩ := operatorTimesEq_ok a b ha.1 hb.1
  refine ⟨r, by rw [operatorTimes, copy_eq]; exact h1, h1, ?_, h4, h3⟩
  simp only [BigInt.value, h3, h4]
  cases a.isNegative <;> cases b.isNegative <;> simp

/-- C3 at `"-5" * "3"`, which renders as `"-15"`, and at `"999" * "999"`,
which renders as `"998001"`. -/
theorem operatorTimes_exact_witness :
    BigInt.Canonical ⟨true, [5]⟩ ∧ BigInt.Canonical ⟨false, [3]⟩ ∧
    (∃ r, operatorTimes ⟨true, [5]⟩ ⟨false, [3]⟩ = .ok r ∧
      BigInt.operatorTimesEq ⟨true, [5]⟩ ⟨false, [3]⟩ = .ok r ∧
      r.value = BigInt.value ⟨true, [5]⟩ * BigInt.value ⟨false, [3]⟩ ∧
      digitsValue r.numbers = digitsValue [5] * digitsValue [3] ∧
      r.isNegative = xor true false) ∧
    ofString "-5".toList = .ok ⟨true, [5]⟩ ∧
    ofString "3".toList = .ok ⟨false, [3]⟩ ∧
    (operatorTimes ⟨true, [5]⟩ ⟨false, [3]⟩ >>= operatorOut "") = .ok "-15" ∧
    ofString "999".toList = .ok ⟨false, [9, 9, 9]⟩ ∧
    (operatorTimes ⟨false, [9, 9, 9]⟩ ⟨false, [9, 9, 9]⟩ >>= operatorOut "") = .ok "998001" :=
  ⟨by decide, by decide,
    operatorTimes_exact ⟨true, [5]⟩ ⟨false, [3]⟩ (by decide) (by decide),
    rfl, rfl, rfl, rfl, rfl⟩

/-- C4 (the code departs from it): the three compound operations return a
zero whose sign flag is set, from canonical operands: `0 *= -5`,
`-5 -= -5` and `-5 += 5` all end as digits `[0]` with `isNegative = true`,
which is not canonical form. -/
theorem negative_zero_results :
    BigInt.Canonical ⟨false, [0]⟩ ∧ BigInt.Canonical ⟨true, [5]⟩ ∧
    BigInt.Canonical ⟨false, [5]⟩ ∧
    BigInt.operatorTimesEq ⟨false, [0]⟩ ⟨true, [5]⟩ = .ok ⟨true, [0]⟩ ∧
    BigInt.operatorMinusEq ⟨true, [5]⟩ ⟨true, [5]⟩ = .ok ⟨true, [0]⟩ ∧
    BigInt.operatorPlusEq ⟨true, [5]⟩ ⟨false, [5]⟩ = .ok ⟨true, [0]⟩ ∧
    ¬ BigInt.Canonical ⟨true, [0]⟩ := by
  refine ⟨by decide, by decide, by decide, rfl, rfl, rfl, by decide⟩

/-- C5 (the code departs from it): on the canonical operands `-10` and `-5`
every one of the four order operators answers the opposite of the integer
order: `-10 <= -5` and `-10 < -5` return false, `-10 > -5` and `-10 >= -5`
return true. -/
theorem order_two_negatives :
    BigInt.Canonical ⟨true, [0, 1]⟩ ∧ BigInt.Canonical ⟨true, [5]⟩ ∧
    BigInt.value ⟨true, [0, 1]⟩ = -10 ∧ BigInt.value ⟨true, [5]⟩ = -5 ∧
    operatorLe ⟨true, [0, 1]⟩ ⟨true, [5]⟩ = .ok false ∧
    operatorLt ⟨true, [0, 1]⟩ ⟨true, [5]⟩ = .ok false ∧
    operatorGt ⟨true, [0, 1]⟩ ⟨true, [5]⟩ = .ok true ∧
    operatorGe ⟨true, [0, 1]⟩ ⟨true, [5]⟩ = .ok true := by
  refine ⟨by decide, by decide, by decide, by decide, rfl, rfl, rfl, rfl⟩

/-- C6: on operands whose digit vectors are canonical, whatever their sign
flags, `isAbsGreaterOrEqual` returns, and it returns true exactly when
`|a| >= |b|`; on equal digit vectors it returns true. -/
theorem isAbsGreaterOrEqual_correct (a b : BigInt) (ha : CanonicalDigits a.numbers)
    (hb : CanonicalDigits b.numbers) :
    (∃ r, a.isAbsGreaterOrEqual b = .ok r ∧
      (r = true ↔ digitsValue a.numbers ≥ digitsValue b.numbers)) ∧
    (a.numbers = b.numbers → a.isAbsGreaterOrEqual b = .ok true) := by
  have h := isAbsGreaterOrEqual_ok a b ha hb
  refine ⟨⟨_, h, by simp⟩, ?_⟩
  intro heq
  rw [h, heq]
  simp

/-- C6 at `-123` against `+123`: equal digit vectors under different sign
flags. -/
theorem isAbsGreaterOrEqual_correct_witness :
    CanonicalDigits [3, 2, 1] ∧
    ((∃ r, BigInt.isAbsGreaterOrEqual ⟨true, [3, 2, 1]⟩ ⟨false, [3, 2, 1]⟩ = .ok r ∧
      (r = true ↔ digitsValue [3, 2, 1] ≥ digitsValue [3, 2, 1])) ∧
    (([3, 2, 1] : List Nat) = [3, 2, 1] →
      BigInt.isAbsGreaterOrEqual ⟨true, [3, 2, 1]⟩ ⟨false, [3, 2, 1]⟩ = .ok true)) :=
  ⟨by decide,
    isAbsGreaterOrEqual_correct ⟨true, [3, 2, 1]⟩ ⟨false, [3, 2, 1]⟩ (by decide) (by decide)⟩

/-- C7 (the code departs from it): `operator==` answers false for a zero
whose sign flag is set against a zero whose flag is clear, and the product
`0 * -5`, which is such a zero, does not compare equal to `0`. -/
theorem zero_not_equal_zero :
    operatorEq ⟨true, [0]⟩ ⟨false, [0]⟩ = .ok false ∧
    ofString "0".toList = .ok ⟨false, [0]⟩ ∧
    ofString "-5".toList = .ok ⟨true, [5]⟩ ∧
    BigInt.Canonical ⟨false, [0]⟩ ∧ BigInt.Canonical ⟨true, [5]⟩ ∧
    operatorTimes ⟨false, [0]⟩ ⟨true, [5]⟩ = .ok ⟨true, [0]⟩ ∧
    (operatorTimes ⟨false, [0]⟩ ⟨true, [5]⟩ >>= fun p => operatorEq p ⟨false, [0]⟩)
      = .ok false ∧
    (operatorTimes ⟨false, [0]⟩ ⟨true, [5]⟩ >>= fun p => operatorEq p BigInt.default)
      = .ok false := by
  refine ⟨rfl, rfl, rfl, by decide, by decide, rfl, rfl, rfl⟩

/-- C8: for operands whose digit vectors are canonical, whatever their sign
flags, `operator<`, `operator==` and `operator>` all return, and exactly one
of them returns true. -/
theorem trichotomy (a b : BigInt) (ha : CanonicalDigits a.numbers)
    (hb : CanonicalDigits b.numbers) :
    ∃ lt eq gt, operatorLt a b = .ok lt ∧ operatorEq a b = .ok eq ∧
      operatorGt a b = .ok gt ∧
      ((lt = true ∧ eq = false ∧ gt = false) ∨ (lt = false ∧ eq = true ∧ gt = false) ∨
        (lt = false ∧ eq = false ∧ gt = true)) := by
  have hab := isAbsGreaterOrEqual_ok a b ha hb
  have hba := isAbsGreaterOrEqual_ok b a hb ha
  have htot : decide (digitsValue a.numbers ≥ digitsValue b.numbers) = true ∨
      decide (digitsValue b.numbers ≥ digitsValue a.numbers) = true := by
    simp only [decide_eq_true_eq]; omega
  generalize decide (digitsValue a.numbers ≥ digitsValue b.numbers) = p at hab htot
  generalize decide (digitsValue b.numbers ≥ digitsValue a.numbers) = q at hba htot
  simp only [operatorLt, operatorGt, operatorGe, operatorLe, operatorEq, getSign, hab, hba]
  cases a.isNegative <;> cases b.isNegative <;> cases p <;> cases q <;>
    simp [bind, Except.bind, pure, Except.pure] at htot ⊢

/-- C8 at a zero whose sign flag is set against the canonical zero. -/
theorem trichotomy_witness :
    CanonicalDigits [0] ∧ CanonicalDigits [0] ∧
    ∃ lt eq gt, operatorLt ⟨true, [0]⟩ ⟨false, [0]⟩ = .ok lt ∧
      operatorEq ⟨true, [0]⟩ ⟨false, [0]⟩ = .ok eq ∧
      operatorGt ⟨true, [0]⟩ ⟨false, [0]⟩ = .ok gt ∧
      ((lt = true ∧ eq = false ∧ gt = false) ∨ (lt = false ∧ eq = true ∧ gt = false) ∨
        (lt = false ∧ eq = false ∧ gt = true)) :=
  ⟨by decide, by decide, trichotomy ⟨true, [0]⟩ ⟨false, [0]⟩ (by decide) (by decide)⟩

/-- C9 (the code departs from it): the empty string is accepted.  The
constructor returns a value with an empty digit vector, and the assignment
leaves the receiver with an empty digit vector and raises nothing.  The value
so built has no digit at index 0: writing it with `operator<<` ends in
`out_of_range`. -/
theorem empty_string_accepted :
    ofString "".toList = .ok ⟨false, []⟩ ∧
    operatorAssignString BigInt.default "".toList = (⟨false, []⟩, none) ∧
    operatorAssignString ⟨true, [5]⟩ "".toList = (⟨true, []⟩, none) ∧
    operatorOut "" ⟨false, []⟩ = .error .outOfRange := by
  refine ⟨rfl, rfl, rfl, rfl⟩

/-- C10: for a non-empty string, the constructor raises `invalid_argument`
exactly when the string is a lone sign character or has a character after the
optional leading sign that is not an ASCII digit; otherwise it returns a value
whose sign flag says whether the string starts with `-`. -/
theorem ofString_rejects_iff (s : List Char) (hs : s ≠ []) :
    ((∃ msg, ofString s = .error (.invalidArgument msg)) ↔ Malformed s) ∧
    (¬ Malformed s →
      ∃ r, ofString s = .ok r ∧ r.isNegative = decide (s.head? = some '-')) := by
  match s, hs with
  | c :: t, _ =>
    by_cases hminus : c = '-'
    · subst hminus
      cases t with
      | nil =>
        refine ⟨⟨fun _ => Or.inr (Or.inl rfl), fun _ => ⟨_, rfl⟩⟩, ?_⟩
        intro h
        exact absurd (Or.inr (Or.inl rfl)) h
      | cons d t =>
        have hof : ofString ('-' :: d :: t)
            = (ctorDigits (d :: t) [] >>= fun n => pure ⟨true, n.reverse⟩) := by
          simp [ofString]
        have hmal : Malformed ('-' :: d :: t) ↔ ∃ c ∈ d :: t, c.isDigit = false := by
          simp [Malformed, afterSign]
        rw [hof, hmal]
        by_cases hbad : ∃ c ∈ d :: t, c.isDigit = false
        · rw [ctorDigits_error _ _ hbad]
          exact ⟨⟨fun _ => hbad, fun _ => ⟨_, rfl⟩⟩, fun h => absurd hbad h⟩
        · obtain ⟨r, hr⟩ := ctorDigits_ok (d :: t) [] hbad
          rw [hr]
          refine ⟨⟨?_, fun h => absurd h hbad⟩, fun _ => ⟨_, rfl, by simp⟩⟩
          rintro ⟨msg, hmsg⟩
          cases hmsg
    · by_cases hplus : c = '+'
      · subst hplus
        cases t with
        | nil =>
          refine ⟨⟨fun _ => Or.inl rfl, fun _ => ⟨_, rfl⟩⟩, ?_⟩
          intro h
          exact absurd (Or.inl rfl) h
        | cons d t =>
          have hof : ofString ('+' :: d :: t)
              = (ctorDigits (d :: t) [] >>= fun n => pure ⟨false, n.reverse⟩) := by
            simp [ofString]
          have hmal : Malformed ('+' :: d :: t) ↔ ∃ c ∈ d :: t, c.isDigit = false := by
            simp [Malformed, afterSign]
          rw [hof, hmal]
          by_cases hbad : ∃ c ∈ d :: t, c.isDigit = false
          · rw [ctorDigits_error _ _ hbad]
            exact ⟨⟨fun _ => hbad, fun _ => ⟨_, rfl⟩⟩, fun h => absurd hbad h⟩
          · obtain ⟨r, hr⟩ := ctorDigits_ok (d :: t) [] hbad
            rw [hr]
            refine ⟨⟨?_, fun h => absurd h hbad⟩, fun _ => ⟨_, rfl, by simp⟩⟩
            rintro ⟨msg, hmsg⟩
            cases hmsg
      · have hof : ofString (c :: t)
            = (ctorDigits (c :: t) [] >>= fun n => pure ⟨false, n.reverse⟩) := by
          simp [ofString, hminus, hplus]
        have hmal : Malformed (c :: t) ↔ ∃ x ∈ c :: t, x.isDigit = false := by
          simp [Malformed, afterSign_other c t hplus hminus, hminus, hplus]
        rw [hof, hmal]
        by_cases hbad : ∃ x ∈ c :: t, x.isDigit = false
        · rw [ctorDigits_error _ _ hbad]
          exact ⟨⟨fun _ => hbad, fun _ => ⟨_, rfl⟩⟩, fun h => absurd hbad h⟩
        · obtain ⟨r, hr⟩ := ctorDigits_ok (c :: t) [] hbad
          rw [hr]
          refine ⟨⟨?_, fun h => absurd h hbad⟩, fun _ => ⟨_, rfl, by simp [hminus]⟩⟩
          rintro ⟨msg, hmsg⟩
          cases hmsg

/-- C10 at `"12a3"`, `"+"` and `"-"`, which are rejected, and at `"-42"`,
which is accepted with the sign flag set. -/
theorem ofString_rejects_iff_witness :
    "12a3".toList ≠ [] ∧
    (((∃ msg, ofString "12a3".toList = .error (.invalidArgument msg))
        ↔ Malformed "12a3".toList) ∧
      (¬ Malformed "12a3".toList →
        ∃ r, ofString "12a3".toList = .ok r ∧
          r.isNegative = decide ("12a3".toList.head? = some '-'))) ∧
    Malformed "12a3".toList ∧ Malformed "+".toList ∧ Malformed "-".toList ∧
    ofString "12a3".toList
      = .error (.invalidArgument "Invalid input: contains non-digit character") ∧
    ofString "+".toList
      = .error (.invalidArgument "Invalid input: only contains sign character") ∧
    ofString "-".toList
      = .error (.invalidArgument "Invalid input: only contains sign character") ∧
    ¬ Malformed "-42".toList ∧ ofString "-42".toList = .ok ⟨true, [2, 4]⟩ :=
  ⟨by decide, ofString_rejects_iff "12a3".toList (by decide),
    by decide, by decide, by decide, rfl, rfl, rfl, by decide, rfl⟩

/-! ## Formatting -/

theorem digitsText_append_singleton (l : List Nat) (d : Nat) :
    digitsText (l ++ [d]) = toString d ++ digitsText l := by
  induction l with
  | nil => simp [digitsText]
  | cons x xs ih =>
    show digitsText (xs ++ [d]) ++ toString x = toString d ++ (digitsText xs ++ toString x)
    rw [ih, String.append_assoc]

theorem take_succ_getD (v : List Nat) (i : Nat) (h : i < v.length) :
    v.take (i + 1) = v.take i ++ [v.getD i 0] := by
  rw [List.take_succ, List.getElem?_eq_getElem h, List.getD_eq_getElem v 0 h]
  rfl

theorem outLoop_ok (b : BigInt) :
    ∀ (i : Nat) (out : String), i < b.numbers.length →
      outLoop b out i = .ok (out ++ digitsText (b.numbers.take (i + 1))) := by
  intro i
  induction i with
  | zero =>
    intro out h
    unfold outLoop
    simp only [getNum, atIdx_ok b.numbers 0 h, bind, Except.bind, pure, Except.pure]
    rw [take_succ_getD b.numbers 0 h]
    simp [digitsText]
  | succ i ih =>
    intro out h
    unfold outLoop
    simp only [getNum, atIdx_ok b.numbers (i + 1) h, bind, Except.bind]
    rw [ih _ (by omega), take_succ_getD b.numbers (i + 1) h, digitsText_append_singleton,
      String.append_assoc]

theorem operatorOut_ok (out : String) (b : BigInt) (hne : b.numbers ≠ []) :
    operatorOut out b
      = .ok (out ++ (if b.isNegative = true ∧ b.numbers ≠ [0] then "-" else "")
          ++ digitsText b.numbers) := by
  have hpos : 0 < b.numbers.length := List.length_pos.mpr hne
  obtain ⟨n, hn⟩ : ∃ n, b.numbers.length = n + 1 := ⟨b.numbers.length - 1, by omega⟩
  have hzero : b.numbers = [0] ↔ (b.numbers.length = 1 ∧ b.numbers.getD 0 0 = 0) := by
    match hb : b.numbers with
    | [] => exact absurd hb hne
    | [x] => simp
    | _ :: _ :: _ => simp
  have hloop : ∀ o : String, (match b.getSize with
      | 0 => (.error .outOfRange : Except Fault String)
      | n + 1 => outLoop b o n) = .ok (o ++ digitsText b.numbers) := by
    intro o
    simp only [getSize, hn]
    rw [outLoop_ok b n o (by omega), List.take_of_length_le (by omega)]
  unfold operatorOut
  by_cases hs : b.isNegative = true
  · by_cases h1 : b.numbers.length = 1
    · by_cases h0 : b.numbers.getD 0 0 = 0
      · have hz : b.numbers = [0] := hzero.mpr ⟨h1, h0⟩
        simp only [getSign, getSize, getNum, hs, h1, if_true, atIdx_ok b.numbers 0 hpos, h0,
          bind, Except.bind, pure, Except.pure]
        rw [outLoop_ok b 0 _ (by omega), List.take_of_length_le (by omega)]
        simp [hz]
      · have hz : b.numbers ≠ [0] := fun h => h0 (hzero.mp h).2
        simp only [getSign, getSize, getNum, hs, h1, if_true, atIdx_ok b.numbers 0 hpos, h0,
          if_false, bind, Except.bind, pure, Except.pure]
        rw [outLoop_ok b 0 _ (by omega), List.take_of_length_le (by omega)]
        simp [hz]
    · have hz : b.numbers ≠ [0] := fun h => h1 (hzero.mp h).1
      simp only [getSign, getSize, hs, h1, if_true, if_false, bind, Except.bind, pure,
        Except.pure]
      have := hloop (out ++ "-")
      simp only [getSize] at this
      rw [this]
      simp [hz]
  · simp only [getSign, hs, Bool.false_eq_true, if_false, bind, Except.bind, pure,
      Except.pure]
    have := hloop out
    rw [this]
    simp [hs]

/-! ## What the parsers store -/

theorem isDigit_toNat (c : Char) (h : c.isDigit = true) : 48 ≤ c.toNat ∧ c.toNat ≤ 57 := by
  rw [← isDigitChar_eq] at h
  unfold isDigitChar at h
  simp only [decide_eq_true_eq] at h
  omega

theorem u8_digit (c : Char) (h : c.isDigit = true) :
    u8 ((c.toNat : Int) - 48) = c.toNat - 48 := by
  have := isDigit_toNat c h
  unfold u8
  omega

theorem ctorDigits_eq (cs : List Char) (acc : List Nat) (h : ∀ c ∈ cs, c.isDigit = true) :
    ctorDigits cs acc = .ok (acc ++ digitsOf cs) := by
  induction cs generalizing acc with
  | nil => simp [ctorDigits, digitsOf]
  | cons c cs ih =>
    have hc : c.isDigit = true := h c (by simp)
    unfold ctorDigits
    simp only [isDigitChar_eq, hc, Bool.not_true, Bool.false_eq_true, if_false]
    rw [ih _ (fun d hd => h d (List.mem_cons_of_mem _ hd)), u8_digit c hc]
    simp [digitsOf]

theorem ofString_valid_eq (s : List Char) (h : ValidDecimal s) :
    ofString s
      = .ok ⟨decide (s.head? = some '-'), (digitsOf (afterSign s)).reverse⟩ := by
  obtain ⟨hne, hd⟩ := h
  match s, hne, hd with
  | [], hne, _ => exact absurd rfl hne
  | c :: t, hne, hd =>
    by_cases hminus : c = '-'
    · subst hminus
      cases t with
      | nil => exact absurd rfl hne
      | cons d t =>
        have hof : ofString ('-' :: d :: t)
            = (ctorDigits (d :: t) [] >>= fun n => pure ⟨true, n.reverse⟩) := by
          simp [ofString]
        rw [hof, ctorDigits_eq (d :: t) [] hd]
        simp [afterSign, bind, Except.bind, pure, Except.pure]
    · by_cases hplus : c = '+'
      · subst hplus
        cases t with
        | nil => exact absurd rfl hne
        | cons d t =>
          have hof : ofString ('+' :: d :: t)
              = (ctorDigits (d :: t) [] >>= fun n => pure ⟨false, n.reverse⟩) := by
            simp [ofString]
          rw [hof, ctorDigits_eq (d :: t) [] hd]
          simp [afterSign, bind, Except.bind, pure, Except.pure]
      · have hof : ofString (c :: t)
            = (ctorDigits (c :: t) [] >>= fun n => pure ⟨false, n.reverse⟩) := by
          simp [ofString, hminus, hplus]
        rw [afterSign_other c t hplus hminus] at hd ⊢
        rw [hof, ctorDigits_eq (c :: t) [] hd]
        simp [bind, Except.bind, pure, Except.pure, hminus]

/-! ## Equality -/

theorem digits_eq_of_value_eq (u v : List Nat) (hu : ∀ d ∈ u, d ≤ 9) (hv : ∀ d ∈ v, d ≤ 9)
    (hlen : u.length = v.length) (h : digitsValue u = digitsValue v) : u = v := by
  induction u generalizing v with
  | nil =>
    cases v with
    | nil => rfl
    | cons _ _ => simp at hlen
  | cons x xs ih =>
    cases v with
    | nil => simp at hlen
    | cons y ys =>
      have hx : x ≤ 9 := hu x (by simp)
      have hy : y ≤ 9 := hv y (by simp)
      rw [digitsValue_cons, digitsValue_cons] at h
      have hxy : x = y := by omega
      have htl : digitsValue xs = digitsValue ys := by omega
      rw [hxy, ih ys (fun d hd => hu d (List.mem_cons_of_mem _ hd))
        (fun d hd => hv d (List.mem_cons_of_mem _ hd)) (by simpa using hlen) htl]

theorem canonical_unique (u v : List Nat) (hu : CanonicalDigits u) (hv : CanonicalDigits v)
    (h : digitsValue u = digitsValue v) : u = v :=
  digits_eq_of_value_eq u v hu.2.1 hv.2.1
    (Nat.le_antisymm (canonical_length_le v u hv hu (by omega))
      (canonical_length_le u v hu hv (by omega))) h

/-- What `operator==` returns on digit vectors of decimal digits, canonical
or not: true exactly when the sign flags are equal and the digit vectors are
identical. -/
theorem operatorEq_ok (a b : BigInt) (ha : ∀ d ∈ a.numbers, d ≤ 9)
    (hb : ∀ d ∈ b.numbers, d ≤ 9) (hne : a.numbers ≠ []) :
    operatorEq a b
      = .ok (decide (a.isNegative = b.isNegative ∧ a.numbers = b.numbers)) := by
  unfold operatorEq
  by_cases hs : a.isNegative = b.isNegative
  · simp only [getSign, hs, ne_eq, not_true_eq_false, if_false, true_and]
    unfold isAbsGreaterOrEqual
    by_cases hlen : a.numbers.length = b.numbers.length
    · have hpos : 0 < a.numbers.length := List.length_pos.mpr hne
      obtain ⟨n, hn⟩ : ∃ n, a.numbers.length = n + 1 := ⟨a.numbers.length - 1, by omega⟩
      have hn2 : b.numbers.length = n + 1 := by omega
      simp only [hlen, ne_eq, not_true_eq_false, if_false]
      rw [hn2]
      simp only [isAbsGreaterOrEqualLoop_ok a.numbers b.numbers ha hb n (by omega) (by omega),
        isAbsGreaterOrEqualLoop_ok b.numbers a.numbers hb ha n (by omega) (by omega),
        bind, Except.bind, pure, Except.pure]
      rw [List.take_of_length_le (by omega), List.take_of_length_le (by omega)]
      by_cases hge : digitsValue a.numbers ≥ digitsValue b.numbers
      · simp only [hge, decide_True, if_true]
        congr 1
        rw [decide_eq_decide]
        constructor
        · intro h
          exact digits_eq_of_value_eq _ _ ha hb hlen (by omega)
        · intro h
          rw [h]
      · simp only [hge, decide_False, Bool.false_eq_true, if_false]
        congr 1
        symm
        rw [decide_eq_false_iff_not]
        intro h
        rw [h] at hge
        exact hge (le_refl _)
    · have hne2 : a.numbers ≠ b.numbers := fun h => hlen (by rw [h])
      have hlen2 : b.numbers.length ≠ a.numbers.length := fun h => hlen h.symm
      simp only [ne_eq, hlen, hlen2, not_false_eq_true, if_true, bind, Except.bind, pure,
        Except.pure, hne2, decide_False]
      by_cases hgt : a.numbers.length > b.numbers.length
      · have : ¬ b.numbers.length > a.numbers.length := by omega
        simp [hgt, this]
      · simp [hgt]
  · have : ¬ (a.isNegative = b.isNegative ∧ a.numbers = b.numbers) := fun h => hs h.1
    simp only [getSign, ne_eq, hs, not_false_eq_true, if_true, this, decide_False]
    rfl

/-! ## Parsing and formatting together -/

theorem char_eq_of_toNat_eq (c d : Char) (h : c.toNat = d.toNat) : c = d := by
  rw [← Char.ofNat_toNat c, ← Char.ofNat_toNat d, h]

theorem digitsOf_le_nine (cs : List Char) (h : ∀ c ∈ cs, c.isDigit = true) :
    ∀ d ∈ digitsOf cs, d ≤ 9 := by
  intro d hd
  obtain ⟨c, hc, rfl⟩ := List.mem_map.mp hd
  have := isDigit_toNat c (h c hc)
  omega

theorem digitsOf_injective (cs ds : List Char) (hc : ∀ c ∈ cs, c.isDigit = true)
    (hd : ∀ c ∈ ds, c.isDigit = true) (h : digitsOf cs = digitsOf ds) : cs = ds := by
  induction cs generalizing ds with
  | nil =>
    cases ds with
    | nil => rfl
    | cons _ _ => simp [digitsOf] at h
  | cons c cs ih =>
    cases ds with
    | nil => simp [digitsOf] at h
    | cons d ds =>
      simp only [digitsOf, List.map_cons, List.cons.injEq] at h
      have h1 := isDigit_toNat c (hc c (by simp))
      have h2 := isDigit_toNat d (hd d (by simp))
      have hcd : c = d := char_eq_of_toNat_eq c d (by omega)
      rw [hcd, ih ds (fun x hx => hc x (List.mem_cons_of_mem _ hx))
        (fun x hx => hd x (List.mem_cons_of_mem _ hx)) h.2]

theorem toString_digit (c : Char) (h : c.isDigit = true) :
    toString (c.toNat - 48) = String.mk [c] := by
  obtain ⟨h1, h2⟩ := isDigit_toNat c h
  have hc : c = Char.ofNat c.toNat := (Char.ofNat_toNat c).symm
  generalize c.toNat = k at h1 h2 hc
  subst hc
  interval_cases k <;> rfl

theorem digitsText_reverse_digitsOf (cs : List Char) (h : ∀ c ∈ cs, c.isDigit = true) :
    digitsText (digitsOf cs).reverse = String.mk cs := by
  induction cs with
  | nil => rfl
  | cons c cs ih =>
    have hrev : (digitsOf (c :: cs)).reverse = (digitsOf cs).reverse ++ [c.toNat - 48] := by
      simp [digitsOf]
    rw [hrev, digitsText_append_singleton, ih (fun d hd => h d (List.mem_cons_of_mem _ hd)),
      toString_digit c (h c (by simp))]
    rfl

theorem digitsOf_reverse_eq_zero (cs : List Char) (h : ∀ c ∈ cs, c.isDigit = true) :
    (digitsOf cs).reverse = [0] ↔ cs = ['0'] := by
  constructor
  · intro h0
    have h1 : digitsOf cs = digitsOf ['0'] := by
      have := congrArg List.reverse h0
      simpa [digitsOf] using this
    exact digitsOf_injective cs ['0'] h (by decide) h1
  · intro h0
    subst h0
    decide

/-- What the constructor does with a valid decimal string: it stores the
digits of the string reversed and removes no zero from them, so two valid
strings give values that `operator==` calls equal only when they have the
same sign flag and the very same digit characters. -/
theorem ofString_valid_stores (s t : List Char) (hs : ValidDecimal s)
    (ht : ValidDecimal t) :
    (∃ r, ofString s = .ok r ∧ r.isNegative = decide (s.head? = some '-') ∧
      r.numbers = (digitsOf (afterSign s)).reverse) ∧
    (∃ a b e, ofString s = .ok a ∧ ofString t = .ok b ∧ operatorEq a b = .ok e ∧
      (e = true ↔
        ((s.head? = some '-' ↔ t.head? = some '-') ∧ afterSign s = afterSign t))) := by
  refine ⟨⟨_, ofString_valid_eq s hs, rfl, rfl⟩, ?_⟩
  have heq := operatorEq_ok
    ⟨decide (s.head? = some '-'), (digitsOf (afterSign s)).reverse⟩
    ⟨decide (t.head? = some '-'), (digitsOf (afterSign t)).reverse⟩
    (fun d hd => digitsOf_le_nine _ hs.2 d (List.mem_reverse.mp hd))
    (fun d hd => digitsOf_le_nine _ ht.2 d (List.mem_reverse.mp hd))
    (by
      intro h0
      have h1 : digitsOf (afterSign s) = [] := by simpa using h0
      exact hs.1 (by simpa [digitsOf] using h1))
  refine ⟨_, _, _, ofString_valid_eq s hs, ofString_valid_eq t ht, heq, ?_⟩
  · simp only [decide_eq_true_eq, decide_eq_decide, List.reverse_inj]
    constructor
    · rintro ⟨h1, h2⟩
      exact ⟨h1, digitsOf_injective _ _ hs.2 ht.2 h2⟩
    · rintro ⟨h1, h2⟩
      exact ⟨h1, by rw [h2]⟩

/-- What `operator<<` writes for the value the constructor builds from a valid
decimal string: the digit characters as the string has them, zeros included,
after a `-` when the string starts with `-` and its digits are not the single
character `0`. -/
theorem render_parsed_valid (s : List Char) (hs : ValidDecimal s) :
    (ofString s >>= operatorOut "")
      = .ok (String.mk
          ((if s.head? = some '-' ∧ afterSign s ≠ ['0'] then ['-'] else [])
            ++ afterSign s)) := by
  rw [ofString_valid_eq s hs]
  show operatorOut "" _ = _
  have hne : (digitsOf (afterSign s)).reverse ≠ [] := by
    intro h0
    have h1 : digitsOf (afterSign s) = [] := by simpa using h0
    exact hs.1 (by simpa [digitsOf] using h1)
  rw [operatorOut_ok "" _ hne]
  have hiff := digitsOf_reverse_eq_zero _ hs.2
  simp only [digitsText_reverse_digitsOf _ hs.2, decide_eq_true_eq]
  congr 1
  by_cases hc : s.head? = some '-' ∧ afterSign s ≠ ['0']
  · rw [if_pos hc, if_pos ⟨hc.1, fun h => hc.2 (hiff.mp h)⟩]
    rfl
  · rw [if_neg hc, if_neg (fun h => hc ⟨h.1, fun h0 => h.2 (hiff.mpr h0)⟩)]
    rfl

/-! ## Claims, continued -/

/-- C11 (the code departs from it): the constructor has no normalisation
step.  From `"007"` it builds the digit vector `[7, 0, 0]`, which is not
canonical, and the value does not compare equal to the one built from `"7"`.
The kernels take such a value for a three-digit number: `|007| >= |10|` is
answered true, and `"007" - "8"` is rendered `"999"`. -/
theorem ofString_007_not_normalized :
    ValidDecimal "007".toList ∧ ValidDecimal "7".toList ∧
    ofString "007".toList = .ok ⟨false, [7, 0, 0]⟩ ∧ ¬ CanonicalDigits [7, 0, 0] ∧
    ofString "7".toList = .ok ⟨false, [7]⟩ ∧
    operatorEq ⟨false, [7, 0, 0]⟩ ⟨false, [7]⟩ = .ok false ∧
    (ofString "007".toList >>= fun a =>
      ofString "7".toList >>= fun b => operatorEq a b) = .ok false ∧
    (ofString "007".toList >>= fun a =>
      ofString "10".toList >>= fun b => a.isAbsGreaterOrEqual b) = .ok true ∧
    (ofString "007".toList >>= fun a =>
      ofString "8".toList >>= fun b => operatorMinus a b >>= operatorOut "")
        = .ok "999" :=
  ⟨by decide, by decide, rfl, by decide, rfl, rfl, rfl, rfl, rfl⟩

/-- C12 (the code departs from it): the zeros the constructor keeps are
written back.  `"007"` is rendered `"007"` and not `"7"`; `"-00"` is rendered
`"-00"` and not `"0"`, the test of `operator<<` for a zero looking at vectors
of size one only. -/
theorem parsed_zeros_rendered :
    ValidDecimal "007".toList ∧
    (ofString "007".toList >>= operatorOut "") = .ok "007" ∧ "007" ≠ "7" ∧
    ValidDecimal "-00".toList ∧
    ofString "-00".toList = .ok ⟨true, [0, 0]⟩ ∧
    (ofString "-00".toList >>= operatorOut "") = .ok "-00" ∧ "-00" ≠ "0" :=
  ⟨by decide, rfl, by decide, by decide, rfl, rfl, by decide⟩

/-- C13: for every value with a non-empty digit vector, `operator<<` appends
to the stream a `-` exactly when the sign flag is set and the digit vector is
not `[0]`, and then every digit once from the most-significant index down to
index 0; so a value whose digit vector is `[0]` is written `0` whatever its
sign flag. -/
theorem operatorOut_correct (out : String) (b : BigInt) (hne : b.numbers ≠ []) :
    operatorOut out b
      = .ok (out ++ (if b.isNegative = true ∧ b.numbers ≠ [0] then "-" else "")
          ++ digitsText b.numbers) ∧
    (b.numbers = [0] → operatorOut "" b = .ok "0") := by
  refine ⟨operatorOut_ok out b hne, ?_⟩
  intro h0
  rw [operatorOut_ok "" b hne, h0]
  simp only [ne_eq, not_true_eq_false, and_false, if_false]
  rfl

/-- C13 at the value of `"0" - "0"`, written `0`; a zero with the sign flag
set is written `0` too, and `-15` is written `-15`. -/
theorem operatorOut_correct_witness :
    (BigInt.numbers ⟨false, [0]⟩ ≠ []) ∧
    (operatorOut "" ⟨false, [0]⟩
        = .ok ("" ++ (if (BigInt.isNegative ⟨false, [0]⟩ = true
              ∧ BigInt.numbers ⟨false, [0]⟩ ≠ [0]) then "-" else "")
          ++ digitsText (BigInt.numbers ⟨false, [0]⟩)) ∧
      (BigInt.numbers ⟨false, [0]⟩ = [0] → operatorOut "" ⟨false, [0]⟩ = .ok "0")) ∧
    operatorMinus ⟨false, [0]⟩ ⟨false, [0]⟩ = .ok ⟨false, [0]⟩ ∧
    operatorOut "" ⟨false, [0]⟩ = .ok "0" ∧
    operatorOut "" ⟨true, [0]⟩ = .ok "0" ∧
    operatorOut "" ⟨true, [5, 1]⟩ = .ok "-15" :=
  ⟨by decide, operatorOut_correct "" ⟨false, [0]⟩ (by decide), rfl, rfl, rfl, rfl⟩

/-! ## Conversion from a native integer -/

theorem pushDigitsLoop_nat : ∀ (fuel k m : Nat) (acc : List Nat), m < 10 ^ k → k < fuel →
    ∃ r, pushDigitsLoop fuel (m : Int) acc = .ok (acc ++ r) ∧ (∀ d ∈ r, d ≤ 9) ∧
      digitsValue r = m ∧ (m ≠ 0 → r ≠ [] ∧ r.getLast? ≠ some 0) ∧ (m = 0 → r = []) := by
  intro fuel
  induction fuel with
  | zero => intro k m acc _ h; omega
  | succ fuel ih =>
    intro k m acc hm hk
    unfold pushDigitsLoop
    by_cases h0 : m = 0
    · subst h0
      refine ⟨[], by simp, by simp, rfl, fun h => absurd rfl h, fun _ => rfl⟩
    · have hne : (m : Int) ≠ 0 := by exact_mod_cast h0
      rw [if_pos hne]
      have hk1 : 1 ≤ k := by
        rcases Nat.eq_zero_or_pos k with h | h
        · subst h
          simp at hm
          omega
        · exact h
      have hdiv : Int.tdiv (m : Int) 10 = ((m / 10 : Nat) : Int) := (Int.ofNat_tdiv m 10).symm
      have hmod : Int.tmod (m : Int) 10 = ((m % 10 : Nat) : Int) := (Int.ofNat_tmod m 10).symm
      have hu8 : u8 ((m % 10 : Nat) : Int) = m % 10 := by unfold u8; omega
      have hlt : m / 10 < 10 ^ (k - 1) := by
        have : 10 ^ k = 10 ^ (k - 1) * 10 := by
          rw [← pow_succ]; congr 1; omega
        rw [this] at hm
        exact Nat.div_lt_of_lt_mul (by rw [Nat.mul_comm]; exact hm)
      rw [hdiv, hmod, hu8]
      obtain ⟨r, h1, h2, h3, h4, h5⟩ := ih (k - 1) (m / 10) (acc ++ [m % 10]) hlt (by omega)
      refine ⟨m % 10 :: r, by rw [h1]; simp, ?_, ?_, fun _ => ⟨by simp, ?_⟩,
        fun h => absurd h h0⟩
      · intro d hd
        rcases List.mem_cons.mp hd with h | h
        · omega
        · exact h2 d h
      · rw [digitsValue_cons, h3]; omega
      · by_cases hq : m / 10 = 0
        · rw [h5 hq]
          simp
          omega
        · obtain ⟨h6, h7⟩ := h4 hq
          match r, h6, h7 with
          | x :: xs, _, h7 => simpa using h7

theorem abs64_nonneg (n : Int) (h : 0 ≤ n) : abs64 n = n := by
  unfold abs64
  rw [if_neg (by omega)]

theorem abs64_neg (n : Int) (h1 : n < 0) (h2 : -(2 : Int) ^ 63 < n) : abs64 n = -n := by
  unfold abs64 wrap64
  rw [if_pos h1]
  omega

/-- The two integer conversions are exact on every `int64_t` but the most
negative one. -/
theorem ofInt64_ok (x : BigInt) (n : Int) (h1 : -(2 : Int) ^ 63 < n) (h2 : n < 2 ^ 63) :
    ∃ r, ofInt64 n = .ok r ∧ x.operatorAssignInt n = .ok r ∧
      r.isNegative = decide (n < 0) ∧ r.Canonical ∧ r.value = n := by
  have key : ∀ m : Nat, m ≠ 0 → (m : Int) < 2 ^ 63 →
      ∃ r, pushDigitsLoop 20 (m : Int) [] = .ok r ∧ CanonicalDigits r ∧ r ≠ [0] ∧
        digitsValue r = m := by
    intro m hm0 hm
    obtain ⟨r, h3, h4, h5, h6, _⟩ := pushDigitsLoop_nat 20 19 m []
      (by
        have : (m : Int) < 10 ^ 19 := by omega
        exact_mod_cast this) (by omega)
    obtain ⟨h7, h8⟩ := h6 hm0
    refine ⟨r, by simpa using h3, ⟨h7, h4, fun h => absurd h h8⟩, ?_, h5⟩
    intro h
    rw [h] at h8
    simp at h8
  rcases lt_trichotomy n 0 with hneg | hzero | hpos
  · obtain ⟨m, hm⟩ : ∃ m : Nat, (m : Int) = -n := ⟨(-n).toNat, by omega⟩
    obtain ⟨r, h3, h4, h5, h6⟩ := key m (by omega) (by omega)
    have ha : abs64 n = (m : Int) := by rw [abs64_neg n hneg h1, hm]
    have hm0 : (m : Int) ≠ 0 := by omega
    refine ⟨⟨true, r⟩, ?_, ?_, by simp [hneg], ⟨h4, fun h => absurd h h5⟩, ?_⟩
    · simp only [ofInt64, ha, hm0, if_false, h3, bind, Except.bind, pure, Except.pure, hneg,
        decide_True]
    · simp only [operatorAssignInt, ha, hm0, if_false, h3, bind, Except.bind, pure,
        Except.pure, hneg, decide_True]
    · simp only [BigInt.value, if_true, h6]
      omega
  · subst hzero
    refine ⟨⟨false, [0]⟩, rfl, rfl, by simp, by decide, by decide⟩
  · obtain ⟨m, hm⟩ : ∃ m : Nat, (m : Int) = n := ⟨n.toNat, by omega⟩
    obtain ⟨r, h3, h4, h5, h6⟩ := key m (by omega) (by omega)
    have ha : abs64 n = (m : Int) := by rw [abs64_nonneg n (by omega), hm]
    have hm0 : (m : Int) ≠ 0 := by omega
    have hn : ¬ n < 0 := by omega
    refine ⟨⟨false, r⟩, ?_, ?_, by simp [hn], ⟨h4, fun h => absurd h h5⟩, ?_⟩
    · simp only [ofInt64, ha, hm0, if_false, h3, bind, Except.bind, pure, Except.pure, hn,
        decide_False]
    · simp only [operatorAssignInt, ha, hm0, if_false, h3, bind, Except.bind, pure,
        Except.pure, hn, decide_False]
    · simp only [BigInt.value, Bool.false_eq_true, if_false, h6]
      omega

/-! ## The record of the accesses of multiplicationAbs -/

theorem idx_error (v : List Nat) (i : Nat) (h : ¬ i < v.length) :
    idx v i = .error .undefinedBehaviour := by
  unfold idx
  rw [List.getElem?_eq_none (by omega)]

/-- The recording inner loop follows the inner loop: when the inner loop
returns, the recording one returns the same vector, and every iteration it
recorded read and wrote inside `temp` and formed a sum of at most 99. -/
theorem multiplicationAbsInnerLog_of_inner (numbers rhs : List Nat) (i : Nat)
    (hn : ∀ d ∈ numbers, d ≤ 9) (hr : ∀ d ∈ rhs, d ≤ 9) :
    ∀ (fuel j : Nat) (temp : List Nat) (carry : Nat) (log : List (Nat × Nat))
      (r : List Nat),
      (∀ d ∈ temp, d ≤ 9) → carry ≤ 9 →
      multiplicationAbsInner numbers rhs i fuel j temp carry = .ok r →
      ∃ l, multiplicationAbsInnerLog numbers rhs i fuel j temp carry log = .ok (r, log ++ l) ∧
        (∀ d ∈ r, d ≤ 9) ∧ r.length = temp.length ∧
        (∀ e ∈ l, e.1 < temp.length ∧ e.2 ≤ 99) := by
  intro fuel
  induction fuel with
  | zero =>
    intro j temp carry log r _ _ h
    simp [multiplicationAbsInner] at h
  | succ fuel ih =>
    intro j temp carry log r hd hc h
    unfold multiplicationAbsInner at h
    unfold multiplicationAbsInnerLog
    by_cases hcond : j < rhs.length ∨ carry ≠ 0
    · rw [if_pos hcond] at h ⊢
      by_cases hij : i + j < temp.length
      · rw [idx_ok temp (i + j) hij] at h ⊢
        have ht : temp.getD (i + j) 0 ≤ 9 := getD_le_nine temp hd (i + j)
        generalize temp.getD (i + j) 0 = t at ht h
        by_cases hjr : j < rhs.length
        · by_cases hi : i < numbers.length
          · have hx : numbers.getD i 0 ≤ 9 := getD_le_nine numbers hn i
            have hy : rhs.getD j 0 ≤ 9 := getD_le_nine rhs hr j
            simp only [if_pos hjr, idx_ok rhs j hjr, idx_ok numbers i hi, bind, Except.bind,
              pure, Except.pure] at h ⊢
            have hyx : rhs.getD j 0 * numbers.getD i 0 ≤ 81 := Nat.mul_le_mul hy hx
            generalize rhs.getD j 0 * numbers.getD i 0 = p at hyx h
            obtain ⟨l, h1, h2, h3, h4⟩ := ih (j + 1) _ _ (log ++ [(i + j, t + p + carry)]) r
              (set_le_nine temp hd (i + j) _ (by omega)) (by omega) h
            refine ⟨(i + j, t + p + carry) :: l, by rw [h1]; simp, h2, by simpa using h3, ?_⟩
            intro e he
            rcases List.mem_cons.mp he with h5 | h5
            · subst h5
              exact ⟨hij, by show t + p + carry ≤ 99; omega⟩
            · simpa using h4 e h5
          · simp [if_pos hjr, idx_ok rhs j hjr, idx_error numbers i hi, bind, Except.bind] at h
        · simp only [if_neg hjr, bind, Except.bind, pure, Except.pure] at h ⊢
          obtain ⟨l, h1, h2, h3, h4⟩ := ih (j + 1) _ _ (log ++ [(i + j, t + carry)]) r
            (set_le_nine temp hd (i + j) _ (by omega)) (by omega) h
          refine ⟨(i + j, t + carry) :: l, by rw [h1]; simp, h2, by simpa using h3, ?_⟩
          intro e he
          rcases List.mem_cons.mp he with h5 | h5
          · subst h5
            exact ⟨hij, by show t + carry ≤ 99; omega⟩
          · simpa using h4 e h5
      · simp [idx_error temp (i + j) hij, bind, Except.bind] at h
    · rw [if_neg hcond] at h ⊢
      cases h
      exact ⟨[], by simp [pure, Except.pure], hd, rfl, by simp⟩

theorem multiplicationAbsOuterLog_of_outer (numbers rhs : List Nat)
    (hn : ∀ d ∈ numbers, d ≤ 9) (hr : ∀ d ∈ rhs, d ≤ 9) :
    ∀ (fuel i : Nat) (temp : List Nat) (log : List (Nat × Nat)) (r : List Nat),
      (∀ d ∈ temp, d ≤ 9) →
      multiplicationAbsOuter numbers rhs fuel i temp = .ok r →
      ∃ l, multiplicationAbsOuterLog numbers rhs fuel i temp log = .ok (r, log ++ l) ∧
        (∀ e ∈ l, e.1 < temp.length ∧ e.2 ≤ 99) := by
  intro fuel
  induction fuel with
  | zero =>
    intro i temp log r _ h
    simp [multiplicationAbsOuter] at h
  | succ fuel ih =>
    intro i temp log r hd h
    unfold multiplicationAbsOuter at h
    unfold multiplicationAbsOuterLog
    by_cases hcond : i < numbers.length
    · rw [if_pos hcond] at h ⊢
      cases hinner : multiplicationAbsInner numbers rhs i (temp.length + 1) 0 temp 0 with
      | error e => simp [hinner, bind, Except.bind] at h
      | ok t =>
        simp only [hinner, bind, Except.bind] at h
        obtain ⟨l1, h1, h2, h3, h4⟩ := multiplicationAbsInnerLog_of_inner numbers rhs i hn hr
          (temp.length + 1) 0 temp 0 log t hd (by omega) hinner
        obtain ⟨l2, h5, h6⟩ := ih (i + 1) t (log ++ l1) r h2 h
        simp only [h1, bind, Except.bind]
        refine ⟨l1 ++ l2, by rw [h5]; simp, ?_⟩
        intro e he
        rcases List.mem_append.mp he with h7 | h7
        · exact h4 e h7
        · have := h6 e h7
          rw [h3] at this
          exact this
    · rw [if_neg hcond] at h ⊢
      cases h
      exact ⟨[], by simp [pure, Except.pure], by simp⟩

/-! ## Failed assignment from a string -/

theorem assignDigits_failure (cs : List Char) (acc : List Nat) (e : Fault)
    (h : (assignDigits cs acc).2 = some e) :
    ∃ pre c post, cs = pre ++ c :: post ∧ (∀ x ∈ pre, x.isDigit = true) ∧
      c.isDigit = false ∧ (assignDigits cs acc).1 = acc ++ digitsOf pre := by
  induction cs generalizing acc with
  | nil => simp [assignDigits] at h
  | cons c cs ih =>
    unfold assignDigits at h ⊢
    by_cases hc : c.isDigit = true
    · simp only [isDigitChar_eq, hc, Bool.not_true, Bool.false_eq_true, if_false] at h ⊢
      obtain ⟨pre, x, post, h1, h2, h3, h4⟩ := ih _ h
      refine ⟨c :: pre, x, post, by rw [h1]; rfl, ?_, h3, ?_⟩
      · intro y hy
        rcases List.mem_cons.mp hy with h5 | h5
        · rw [h5]; exact hc
        · exact h2 y h5
      · rw [h4, u8_digit c hc]
        simp [digitsOf]
    · have hc2 : c.isDigit = false := by simpa using hc
      simp only [isDigitChar_eq, hc2, Bool.not_false, if_true]
      exact ⟨[], c, cs, rfl, by simp, hc2, by simp [digitsOf]⟩

theorem drop_sign_eq_afterSign (s : List Char) :
    s.drop (if s.getD 0 (Char.ofNat 0) = '-' then 1
      else if s.getD 0 (Char.ofNat 0) = '+' then 1 else 0) = afterSign s := by
  match s with
  | [] => rfl
  | c :: t =>
    by_cases hminus : c = '-'
    · subst hminus; rfl
    · by_cases hplus : c = '+'
      · subst hplus; rfl
      · rw [afterSign_other c t hplus hminus]
        simp [hminus, hplus]

theorem assignDigits_fault (cs : List Char) (acc : List Nat) (e : Fault)
    (h : (assignDigits cs acc).2 = some e) :
    e = .invalidArgument "Invalid assignment: contains non-digit character" := by
  induction cs generalizing acc with
  | nil => simp [assignDigits] at h
  | cons c cs ih =>
    unfold assignDigits at h
    by_cases hc : isDigitChar c = true
    · simp only [hc, Bool.not_true, Bool.false_eq_true, if_false] at h
      exact ih _ h
    · have hc2 : isDigitChar c = false := by simpa using hc
      simp only [hc2, Bool.not_false, if_true, Option.some.injEq] at h
      exact h.symm

theorem getD_zero_eq_iff (s : List Char) (c : Char) (hc : c ≠ Char.ofNat 0) :
    s.getD 0 (Char.ofNat 0) = c ↔ s.head? = some c := by
  match s with
  | [] => simp; exact fun h => hc h.symm
  | x :: t => simp

theorem operatorAssignString_not_lone (self : BigInt) (s : List Char)
    (h : ¬ (s.length = 1 ∧
      (s.getD 0 (Char.ofNat 0) = '-' ∨ s.getD 0 (Char.ofNat 0) = '+'))) :
    operatorAssignString self s
      = (match assignDigits (afterSign s) [] with
        | (numbers, some e) => (⟨flagAfterAssign self s, numbers⟩, some e)
        | (numbers, none) => (⟨flagAfterAssign self s, numbers.reverse⟩, none)) := by
  simp only [operatorAssignString, if_neg h, drop_sign_eq_afterSign]
  simp only [flagAfterAssign, getD_zero_eq_iff s '-' (by decide),
    getD_zero_eq_iff s '+' (by decide)]

/-- C14 (the code departs from it): on the canonical operands `-5` and `5`
the sum `a + b` is a zero with the sign flag set and the sum `b + a` is a zero
with the flag clear, and `operator==` answers that they are not equal. -/
theorem plus_not_commutative :
    BigInt.Canonical ⟨true, [5]⟩ ∧ BigInt.Canonical ⟨false, [5]⟩ ∧
    operatorPlus ⟨true, [5]⟩ ⟨false, [5]⟩ = .ok ⟨true, [0]⟩ ∧
    operatorPlus ⟨false, [5]⟩ ⟨true, [5]⟩ = .ok ⟨false, [0]⟩ ∧
    (operatorPlus ⟨true, [5]⟩ ⟨false, [5]⟩ >>= fun x =>
      operatorPlus ⟨false, [5]⟩ ⟨true, [5]⟩ >>= fun y => operatorEq x y) = .ok false :=
  ⟨by decide, by decide, rfl, rfl, rfl⟩

/-- C15: for canonical `a` and `b` the products `a * b` and `b * a` are the
same value, with the same sign flag and the same digit vector, and
`operator==` answers that they are equal. -/
theorem operatorTimes_comm (a b : BigInt) (ha : a.Canonical) (hb : b.Canonical) :
    ∃ p q, operatorTimes a b = .ok p ∧ operatorTimes b a = .ok q ∧ p = q ∧
      operatorEq p q = .ok true := by
  obtain ⟨p, h1, h2, h3, h4⟩ := operatorTimesEq_ok a b ha.1 hb.1
  obtain ⟨q, k1, k2, k3, k4⟩ := operatorTimesEq_ok b a hb.1 ha.1
  have hnum : p.numbers = q.numbers :=
    canonical_unique _ _ h2 k2 (by rw [h4, k4, Nat.mul_comm])
  have hsign : p.isNegative = q.isNegative := by
    rw [h3, k3]
    cases a.isNegative <;> cases b.isNegative <;> rfl
  have hpq : p = q := by
    cases p
    cases q
    simp only [BigInt.mk.injEq]
    exact ⟨hsign, hnum⟩
  refine ⟨p, q, by rw [operatorTimes, copy_eq]; exact h1,
    by rw [operatorTimes, copy_eq]; exact k1, hpq, ?_⟩
  rw [operatorEq_ok p q h2.2.1 k2.2.1 h2.1]
  simp [hsign, hnum]

/-- C15 at `-5` and `3`, and at `0` and `-5`, where both products are the
zero with the sign flag set. -/
theorem operatorTimes_comm_witness :
    BigInt.Canonical ⟨true, [5]⟩ ∧ BigInt.Canonical ⟨false, [3]⟩ ∧
    (∃ p q, operatorTimes ⟨true, [5]⟩ ⟨false, [3]⟩ = .ok p ∧
      operatorTimes ⟨false, [3]⟩ ⟨true, [5]⟩ = .ok q ∧ p = q ∧
      operatorEq p q = .ok true) ∧
    operatorTimes ⟨true, [5]⟩ ⟨false, [3]⟩ = .ok ⟨true, [5, 1]⟩ ∧
    operatorTimes ⟨false, [3]⟩ ⟨true, [5]⟩ = .ok ⟨true, [5, 1]⟩ ∧
    operatorTimes ⟨false, [0]⟩ ⟨true, [5]⟩ = .ok ⟨true, [0]⟩ ∧
    operatorTimes ⟨true, [5]⟩ ⟨false, [0]⟩ = .ok ⟨true, [0]⟩ :=
  ⟨by decide, by decide,
    operatorTimes_comm ⟨true, [5]⟩ ⟨false, [3]⟩ (by decide) (by decide), rfl, rfl, rfl, rfl⟩

/-- C16 (the code departs from it): for the canonical value `-5`, `a - a` is
the zero with the sign flag set, and it does not compare equal to
`BigInt(0)`. -/
theorem minus_self_negative :
    ofInt64 (-5) = .ok ⟨true, [5]⟩ ∧ BigInt.Canonical ⟨true, [5]⟩ ∧
    operatorMinus ⟨true, [5]⟩ ⟨true, [5]⟩ = .ok ⟨true, [0]⟩ ∧
    ofInt64 0 = .ok ⟨false, [0]⟩ ∧
    operatorEq ⟨true, [0]⟩ ⟨false, [0]⟩ = .ok false ∧
    (operatorMinus ⟨true, [5]⟩ ⟨true, [5]⟩ >>= fun d =>
      ofInt64 0 >>= fun z => operatorEq d z) = .ok false :=
  ⟨rfl, by decide, rfl, rfl, rfl, rfl⟩

/-- C17 (the code departs from it): at the most negative `int64_t`, whose
negation in two's complement is itself, the constructor and the assignment
store the bytes `256 - d` for the non-zero decimal digits `d`: the digit
vector is not canonical and the value denoted is not `n`. -/
theorem ofInt64_min :
    ofInt64 (-2 ^ 63) = .ok ⟨true,
      [248, 0, 248, 251, 249, 249, 252, 251, 248, 250, 253, 0, 254, 249, 253, 253, 254,
        254, 247]⟩ ∧
    BigInt.operatorAssignInt BigInt.default (-2 ^ 63) = .ok ⟨true,
      [248, 0, 248, 251, 249, 249, 252, 251, 248, 250, 253, 0, 254, 249, 253, 253, 254,
        254, 247]⟩ ∧
    ¬ CanonicalDigits
      [248, 0, 248, 251, 249, 249, 252, 251, 248, 250, 253, 0, 254, 249, 253, 253, 254,
        254, 247] ∧
    BigInt.value ⟨true,
      [248, 0, 248, 251, 249, 249, 252, 251, 248, 250, 253, 0, 254, 249, 253, 253, 254,
        254, 247]⟩ ≠ -2 ^ 63 :=
  ⟨rfl, rfl, by decide, by decide⟩

/-- C18: for operands whose vectors hold decimal digits only (non-empty or
not), `multiplicationAbs` returns (no access of `temp`, `rhs.numbers` or
`numbers` falls outside its vector), and in the record of its inner
iterations every index `i + j` is below `len(this) + len(rhs)`, every sum
formed is at most 99 and every carry passed on is at most 9. -/
theorem multiplicationAbs_in_bounds (a b : BigInt) (ha : ∀ d ∈ a.numbers, d ≤ 9)
    (hb : ∀ d ∈ b.numbers, d ≤ 9) :
    ∃ r log, a.multiplicationAbsLog b = .ok (r, log) ∧ a.multiplicationAbs b = .ok r ∧
      ∀ e ∈ log, e.1 < a.numbers.length + b.numbers.length ∧ e.2 ≤ 99 ∧ e.2 / 10 ≤ 9 := by
  have hzero : ∀ d ∈ List.replicate (a.numbers.length + b.numbers.length) 0, d ≤ 9 := by
    intro d hd
    rw [(List.mem_replicate.mp hd).2]
    omega
  obtain ⟨r, h1, _, _, _⟩ := multiplicationAbsOuter_ok a.numbers b.numbers ha hb
    (a.numbers.length + 1) 0 (List.replicate (a.numbers.length + b.numbers.length) 0)
    hzero (by simp) (by omega) (by omega)
    (by rw [digitsValue_replicate_zero]; simp [digitsValue_nil])
  obtain ⟨l, h2, h3⟩ := multiplicationAbsOuterLog_of_outer a.numbers b.numbers ha hb
    (a.numbers.length + 1) 0 _ [] r hzero h1
  obtain ⟨t, t1, _⟩ := trimLoop_ok (r.length + 1) r (by omega)
  refine ⟨⟨a.isNegative, t⟩, l, ?_, ?_, ?_⟩
  · simp only [multiplicationAbsLog, h2, t1, bind, Except.bind, pure, Except.pure,
      List.nil_append]
  · simp only [multiplicationAbs, h1, t1, bind, Except.bind, pure, Except.pure]
  · intro e he
    have := h3 e he
    rw [List.length_replicate] at this
    exact ⟨this.1, this.2, by omega⟩

/-- C18 at `99 * 99`: six inner iterations, two of them (at indices 2 and 3)
past the length of `rhs` with a carry pending. -/
theorem multiplicationAbs_in_bounds_witness :
    (∀ d ∈ BigInt.numbers ⟨false, [9, 9]⟩, d ≤ 9) ∧
    (∃ r log, BigInt.multiplicationAbsLog ⟨false, [9, 9]⟩ ⟨false, [9, 9]⟩ = .ok (r, log) ∧
      BigInt.multiplicationAbs ⟨false, [9, 9]⟩ ⟨false, [9, 9]⟩ = .ok r ∧
      ∀ e ∈ log, e.1 < (BigInt.numbers ⟨false, [9, 9]⟩).length
          + (BigInt.numbers ⟨false, [9, 9]⟩).length ∧ e.2 ≤ 99 ∧ e.2 / 10 ≤ 9) ∧
    BigInt.multiplicationAbsLog ⟨false, [9, 9]⟩ ⟨false, [9, 9]⟩
      = .ok (⟨false, [1, 0, 8, 9]⟩, [(0, 81), (1, 89), (2, 8), (1, 90), (2, 98), (3, 9)]) :=
  ⟨by decide,
    multiplicationAbs_in_bounds ⟨false, [9, 9]⟩ ⟨false, [9, 9]⟩ (by decide) (by decide),
    rfl⟩

/-- C19: on canonical digit vectors, `additionAbs` returns a canonical digit
vector, and it is the vector its loop leaves (there is no trimming step);
`subtractionAbs` returns a canonical digit vector whenever `|this| >= |rhs|`,
its loop leaving decimal digits only and the exact difference (no borrow
pending); `multiplicationAbs` returns a canonical digit vector. -/
theorem kernels_keep_canonical (a b : BigInt) (ha : CanonicalDigits a.numbers)
    (hb : CanonicalDigits b.numbers) :
    (∃ r, a.additionAbs b = .ok r ∧ CanonicalDigits r.numbers ∧
      additionAbsLoop b.numbers (max a.numbers.length b.numbers.length)
        (max a.numbers.length b.numbers.length + 3) 0 a.numbers 0 = .ok r.numbers) ∧
    (digitsValue b.numbers ≤ digitsValue a.numbers →
      (∃ r, a.subtractionAbs b = .ok r ∧ CanonicalDigits r.numbers) ∧
      (∃ v, subtractionAbsLoop b.numbers (a.numbers.length + 1) 0 a.numbers 0 = .ok v ∧
        (∀ d ∈ v, d ≤ 9) ∧ digitsValue v + digitsValue b.numbers = digitsValue a.numbers)) ∧
    (∃ r, a.multiplicationAbs b = .ok r ∧ CanonicalDigits r.numbers) := by
  refine ⟨?_, ?_, ?_⟩
  · obtain ⟨r, h1, _, h3, _⟩ := additionAbs_canonical a b ha hb
    refine ⟨r, h1, h3, ?_⟩
    unfold additionAbs at h1
    cases hloop : additionAbsLoop b.numbers (max a.numbers.length b.numbers.length)
        (max a.numbers.length b.numbers.length + 3) 0 a.numbers 0 with
    | error e => simp [hloop, bind, Except.bind] at h1
    | ok v =>
      simp only [hloop, bind, Except.bind, pure, Except.pure, Except.ok.injEq] at h1
      rw [← h1]
  · intro hge
    have hlen := canonical_length_le a.numbers b.numbers ha hb hge
    obtain ⟨r, h1, _, h3, _⟩ := subtractionAbs_ok a b ha.2.1 hb.2.1 ha.1 hlen hge
    refine ⟨⟨r, h1, h3⟩, ?_⟩
    obtain ⟨v, bout, k1, k2, k3, k4, k5⟩ := subtractionAbsLoop_ok b.numbers hb.2.1
      (a.numbers.length + 1) 0 a.numbers 0 ha.2.1 (by omega) (by omega) (by omega) hlen
    have hlt := digitsValue_lt v k2
    rw [k3] at hlt
    simp only [pow_zero, List.drop_zero, zero_add, one_mul] at k5
    have hb0 : bout = 0 := by
      rcases Nat.eq_zero_or_pos bout with h | h
      · exact h
      · have : bout = 1 := by omega
        subst this
        omega
    subst hb0
    exact ⟨v, k1, k2, by omega⟩
  · obtain ⟨r, h1, _, h3, _⟩ := multiplicationAbs_ok a b ha.2.1 hb.2.1 ha.1
    exact ⟨r, h1, h3⟩

/-- C19 at `999` and `1`: the sum `1000` ends in the carry, the difference
`998` needs borrows in no position, the product is `999`; and at `100` and
`1`, where the subtraction loop borrows twice and leaves `[9, 9, 0]`, which
the trimming makes `[9, 9]`. -/
theorem kernels_keep_canonical_witness :
    CanonicalDigits [9, 9, 9] ∧ CanonicalDigits [1] ∧
    ((∃ r, BigInt.additionAbs ⟨false, [9, 9, 9]⟩ ⟨false, [1]⟩ = .ok r ∧
        CanonicalDigits r.numbers ∧
        additionAbsLoop [1] (max [9, 9, 9].length [1].length)
          (max [9, 9, 9].length [1].length + 3) 0 [9, 9, 9] 0 = .ok r.numbers) ∧
      (digitsValue [1] ≤ digitsValue [9, 9, 9] →
        (∃ r, BigInt.subtractionAbs ⟨false, [9, 9, 9]⟩ ⟨false, [1]⟩ = .ok r ∧
          CanonicalDigits r.numbers) ∧
        (∃ v, subtractionAbsLoop [1] ([9, 9, 9].length + 1) 0 [9, 9, 9] 0 = .ok v ∧
          (∀ d ∈ v, d ≤ 9) ∧ digitsValue v + digitsValue [1] = digitsValue [9, 9, 9])) ∧
      (∃ r, BigInt.multiplicationAbs ⟨false, [9, 9, 9]⟩ ⟨false, [1]⟩ = .ok r ∧
        CanonicalDigits r.numbers)) ∧
    BigInt.additionAbs ⟨false, [9, 9, 9]⟩ ⟨false, [1]⟩ = .ok ⟨false, [0, 0, 0, 1]⟩ ∧
    subtractionAbsLoop [1] 4 0 [0, 0, 1] 0 = .ok [9, 9, 0] ∧
    BigInt.subtractionAbs ⟨false, [0, 0, 1]⟩ ⟨false, [1]⟩ = .ok ⟨false, [9, 9]⟩ :=
  ⟨by decide, by decide,
    kernels_keep_canonical ⟨false, [9, 9, 9]⟩ ⟨false, [1]⟩ (by decide) (by decide),
    rfl, rfl, rfl⟩

/-- C20 as stated fails: assigning `"-"` to the value `5` raises the error
and leaves the receiver `-5`; assigning `"12a3"` to the value `5` raises the
error and leaves the receiver with the digit vector `[1, 2]`. -/
theorem assign_failure_changes_receiver :
    operatorAssignString ⟨false, [5]⟩ "-".toList
      = (⟨true, [5]⟩,
        some (.invalidArgument "Invalid assignment: only contains sign character")) ∧
    operatorAssignString ⟨false, [5]⟩ "12a3".toList
      = (⟨false, [1, 2]⟩,
        some (.invalidArgument "Invalid assignment: contains non-digit character")) ∧
    (⟨true, [5]⟩ : BigInt) ≠ ⟨false, [5]⟩ ∧ (⟨false, [1, 2]⟩ : BigInt) ≠ ⟨false, [5]⟩ :=
  ⟨rfl, rfl, by decide, by decide⟩

/-- C20 as amended: whenever `operator=(const string &)` raises, the error is
`invalid_argument` and the receiver is left as follows.  After a lone sign:
the digit vector it had, and the sign flag the sign character sets.  After a
non-digit character: the digits read before that character, in the order of
the string, and the sign flag a leading sign character sets (the flag it had
when there is none). -/
theorem operatorAssignString_failure (self : BigInt) (s : List Char) (e : Fault)
    (h : (operatorAssignString self s).2 = some e) :
    (∃ msg, e = .invalidArgument msg) ∧
    ((s = ['-'] ∧ (operatorAssignString self s).1 = ⟨true, self.numbers⟩) ∨
      (s = ['+'] ∧ (operatorAssignString self s).1 = ⟨false, self.numbers⟩) ∨
      (∃ pre c post, afterSign s = pre ++ c :: post ∧ (∀ x ∈ pre, x.isDigit = true) ∧
        c.isDigit = false ∧
        (operatorAssignString self s).1 = ⟨flagAfterAssign self s, digitsOf pre⟩)) := by
  by_cases hlone : s.length = 1 ∧
      (s.getD 0 (Char.ofNat 0) = '-' ∨ s.getD 0 (Char.ofNat 0) = '+')
  · match s, hlone with
    | [c], ⟨_, hc⟩ =>
      simp only [List.getD_cons_zero] at hc
      rcases hc with hc | hc
      · subst hc
        have hv : operatorAssignString self ['-'] = (⟨true, self.numbers⟩,
            some (.invalidArgument "Invalid assignment: only contains sign character")) := by
          simp [operatorAssignString]
        rw [hv] at h ⊢
        simp only [Option.some.injEq] at h
        exact ⟨⟨_, h.symm⟩, Or.inl ⟨rfl, rfl⟩⟩
      · subst hc
        have hv : operatorAssignString self ['+'] = (⟨false, self.numbers⟩,
            some (.invalidArgument "Invalid assignment: only contains sign character")) := by
          simp [operatorAssignString]
        rw [hv] at h ⊢
        simp only [Option.some.injEq] at h
        exact ⟨⟨_, h.symm⟩, Or.inr (Or.inl ⟨rfl, rfl⟩)⟩
  · rw [operatorAssignString_not_lone self s hlone] at h ⊢
    cases hd : assignDigits (afterSign s) [] with
    | mk numbers fault =>
      cases fault with
      | none => simp [hd] at h
      | some f =>
        simp only [hd, Option.some.injEq] at h ⊢
        have hf : (assignDigits (afterSign s) []).2 = some f := by rw [hd]
        obtain ⟨pre, c, post, h1, h2, h3, h4⟩ := assignDigits_failure _ _ _ hf
        have h5 := assignDigits_fault _ _ _ hf
        rw [hd] at h4
        simp only [List.nil_append] at h4
        refine ⟨⟨_, by rw [← h, h5]⟩, Or.inr (Or.inr ⟨pre, c, post, h1, h2, h3, ?_⟩)⟩
        rw [h4]

/-- C20 as amended, at `"-7x"` assigned to the value `5`: the receiver is
left as `-7`. -/
theorem operatorAssignString_failure_witness :
    (operatorAssignString ⟨false, [5]⟩ "-7x".toList).2
      = some (.invalidArgument "Invalid assignment: contains non-digit character") ∧
    ((∃ msg, Fault.invalidArgument "Invalid assignment: contains non-digit character"
        = .invalidArgument msg) ∧
      (("-7x".toList = ['-'] ∧
          (operatorAssignString ⟨false, [5]⟩ "-7x".toList).1 = ⟨true, [5]⟩) ∨
        ("-7x".toList = ['+'] ∧
          (operatorAssignString ⟨false, [5]⟩ "-7x".toList).1 = ⟨false, [5]⟩) ∨
        (∃ pre c post, afterSign "-7x".toList = pre ++ c :: post ∧
          (∀ x ∈ pre, x.isDigit = true) ∧ c.isDigit = false ∧
          (operatorAssignString ⟨false, [5]⟩ "-7x".toList).1
            = ⟨flagAfterAssign ⟨false, [5]⟩ "-7x".toList, digitsOf pre⟩))) ∧
    operatorAssignString ⟨false, [5]⟩ "-7x".toList
      = (⟨true, [7]⟩,
        some (.invalidArgument "Invalid assignment: contains non-digit character")) :=
  ⟨rfl, operatorAssignString_failure ⟨false, [5]⟩ "-7x".toList _ rfl, rfl⟩

end BigIntModel
